import Mathlib

/-!
# Initia application (`app/app.go`, `api/initia/reward/v1/query_grpc.pb.go`)

A shallow embedding of the parts of the Initia node application that the
specification speaks about, followed by the theorems that settle the claims.

Conventions of the embedding:

* Go `uint64` values are natural numbers, arithmetic on them is taken modulo `2 ^ 64`;
* a Go `error` result is an `Option`: `none` is `nil`;
* a Go `map` is an association list with pairwise distinct keys; a `for ... range` loop
  over a map visits every entry once in an unspecified order, so the loops take the
  visiting order as an argument;
* string constants that `app.go` imports from other packages are kept symbolic
  (`GoString`), one constructor per identifier.
-/

namespace Initia

/-! ## Definitions -/

/-- A byte of a Go `[]byte`. -/
abbrev Byte := Fin 256

/-! ### `VerifyAddressLen` (app.go) -/

/-- The errors of `sdkerrors` that `app.go` returns. -/
inductive SdkError where
  | ErrInvalidAddress
  deriving DecidableEq, Repr

/-- Function `VerifyAddressLen()` of app.go: the returned closure, applied to `addr`.
`AddressBytesLength` is the constant `movetypes.AddressBytesLength`, declared outside
`app.go`; it is an argument of the embedding. -/
def VerifyAddressLen (AddressBytesLength : Int) (addr : List Byte) : Option SdkError :=
  let addrLen : Int := addr.length
  if addrLen ≠ 20 ∧ addrLen ≠ AddressBytesLength then
    some SdkError.ErrInvalidAddress
  else
    none

/-! ### `InitiaApp.Simulate` (app.go) -/

/-- Type `sdk.GasInfo`: two `uint64` counters. -/
structure GasInfo where
  GasWanted : Nat
  GasUsed : Nat
  deriving DecidableEq, Repr

/-- Method `InitiaApp.Simulate` of app.go. `baseSimulate` is `app.BaseApp.Simulate` and
`FeeDeductionGasAmount` the package constant of that name, both defined outside
`app.go`. The `+=` on the `uint64` field wraps modulo `2 ^ 64`. -/
def Simulate {Result Err : Type}
    (baseSimulate : List Byte → GasInfo × Option Result × Option Err)
    (FeeDeductionGasAmount : Nat) (txBytes : List Byte) :
    GasInfo × Option Result × Option Err :=
  match baseSimulate txBytes with
  | (gasInfo, result, err) =>
    ({ gasInfo with GasUsed := (gasInfo.GasUsed + FeeDeductionGasAmount) % 2 ^ 64 }, result, err)

/-! ### `InitiaApp.CheckTx` and `InitiaApp.SetCheckTx` (app.go) -/

/-- Type `mev.CheckTx`: a Go function value `func(abci.RequestCheckTx) abci.ResponseCheckTx`.
A Go function may read and write the state of the node (`World`), and the function
value may be `nil`. -/
abbrev CheckTxFn (Req Resp World : Type) := Option (Req → World → Resp × World)

/-- The struct `InitiaApp` of app.go. `others` stands for every field of the struct
except the last one (the embedded `*baseapp.BaseApp`, the codecs, the store keys, the
keepers, the module manager and the configurator); `checkTxHandler` is the field
`checkTxHandler mev.CheckTx`. -/
structure InitiaApp (Others Req Resp World : Type) where
  others : Others
  checkTxHandler : CheckTxFn Req Resp World

/-- Method `func (app *InitiaApp) SetCheckTx(handler mev.CheckTx)`: the assignment
`app.checkTxHandler = handler`. -/
def InitiaApp.SetCheckTx {Others Req Resp World : Type}
    (app : InitiaApp Others Req Resp World) (handler : CheckTxFn Req Resp World) :
    InitiaApp Others Req Resp World :=
  { app with checkTxHandler := handler }

/-- Method `func (app *InitiaApp) CheckTx(req abci.RequestCheckTx) abci.ResponseCheckTx`:
the call `app.checkTxHandler(req)`. Calling a `nil` function value panics: `none`. -/
def InitiaApp.CheckTx {Others Req Resp World : Type}
    (app : InitiaApp Others Req Resp World) (req : Req) (w : World) :
    Option (Resp × World) :=
  match app.checkTxHandler with
  | none => none
  | some handler => some (handler req w)

/-! ### Go maps -/

/-- A Go map: its entries. The keys of a well-formed map are pairwise distinct. -/
abbrev GoMap (κ ν : Type) := List (κ × ν)

/-- The map index expression `m[k]`, with `none` for an absent key. -/
def GoMap.get {κ ν : Type} [DecidableEq κ] (m : GoMap κ ν) (k : κ) : Option ν :=
  match m with
  | [] => none
  | (k', v) :: rest => if k' = k then some v else GoMap.get rest k

/-- The assignment `m[k] = v`. -/
def GoMap.set {κ ν : Type} [DecidableEq κ] (m : GoMap κ ν) (k : κ) (v : ν) : GoMap κ ν :=
  match m with
  | [] => [(k, v)]
  | (k', v') :: rest => if k' = k then (k, v) :: rest else (k', v') :: GoMap.set rest k v

/-- The builtin `delete(m, k)`. -/
def GoMap.delete {κ ν : Type} [DecidableEq κ] (m : GoMap κ ν) (k : κ) : GoMap κ ν :=
  m.filter (fun e => decide (e.1 ≠ k))

/-- The keys of a map. -/
def GoMap.keys {κ ν : Type} (m : GoMap κ ν) : List κ := m.map Prod.fst

/-! ### `maccPerms`, `GetMaccPerms`, `ModuleAccountAddrs` (app.go) -/

/-- The string constants that `maccPerms` is built from, by the identifier app.go uses
for them, and every other Go string (`lit`). The keys of a map literal are pairwise
distinct constants (the Go compiler rejects a duplicate constant key). -/
inductive GoString where
  | authtypes_FeeCollectorName
  | distrtypes_ModuleName
  | icatypes_ModuleName
  | ibcfeetypes_ModuleName
  | rewardtypes_ModuleName
  | stakingtypes_BondedPoolName
  | stakingtypes_NotBondedPoolName
  | govtypes_ModuleName
  | ibctransfertypes_ModuleName
  | movetypes_MoveStakingModuleName
  | auctiontypes_ModuleName
  | authtypes_Minter
  | authtypes_Burner
  | authtypes_Staking
  | lit (s : String)
  deriving DecidableEq, Repr

open GoString in
/-- The package variable `maccPerms` of app.go (module account permissions), as the map
literal that initialises it. A `nil` permission slice is the empty list. -/
def maccPerms : GoMap GoString (List GoString) :=
  [ (authtypes_FeeCollectorName, []),
    (distrtypes_ModuleName, []),
    (icatypes_ModuleName, []),
    (ibcfeetypes_ModuleName, []),
    (rewardtypes_ModuleName, []),
    (stakingtypes_BondedPoolName, [authtypes_Burner, authtypes_Staking]),
    (stakingtypes_NotBondedPoolName, [authtypes_Burner, authtypes_Staking]),
    (govtypes_ModuleName, [authtypes_Burner]),
    (ibctransfertypes_ModuleName, [authtypes_Minter, authtypes_Burner]),
    (movetypes_MoveStakingModuleName, []),
    (auctiontypes_ModuleName, []),
    (authtypes_Minter, [authtypes_Minter]) ]

/-- The maps of type `map[string][]string` that the program has allocated. A map value
is a reference (`MapRef`) into this store: two variables alias exactly when they hold
the same reference. -/
abbrev MapStore := List (GoMap GoString (List GoString))

/-- A reference to an allocated map. -/
abbrev MapRef := Nat

/-- The reference held by the package variable `maccPerms`: the first map allocated. -/
def maccPermsRef : MapRef := 0

/-- The store after package initialisation. -/
def initStore : MapStore := [maccPerms]

/-- The map a reference points to. -/
def MapStore.deref (h : MapStore) (r : MapRef) : GoMap GoString (List GoString) :=
  (h.get? r).getD []

/-- The builtin `make(map[string][]string)`: a new, empty map at a new reference. -/
def MapStore.make (h : MapStore) : MapRef × MapStore := (h.length, h ++ [[]])

/-- The statement `r[k] = v` on the map behind `r`. -/
def MapStore.assign (h : MapStore) (r : MapRef) (k : GoString) (v : List GoString) :
    MapStore :=
  h.set r ((h.deref r).set k v)

/-- The statement `delete(r, k)` on the map behind `r`. -/
def MapStore.remove (h : MapStore) (r : MapRef) (k : GoString) : MapStore :=
  h.set r ((h.deref r).delete k)

/-- Function `GetMaccPerms` of app.go: `make` a map, then `dupMaccPerms[k] = v` for every entry
of `maccPerms`, visited in the order `order`; returns the new reference. -/
def GetMaccPerms (order : List (GoString × List GoString)) (h : MapStore) :
    MapRef × MapStore :=
  match h.make with
  | (dupMaccPerms, h1) =>
    (dupMaccPerms, order.foldl (fun hs kv => hs.assign dupMaccPerms kv.1 kv.2) h1)

/-- Method `InitiaApp.ModuleAccountAddrs` of app.go: `modAccAddrs[addr acc] = true` for every
key `acc` of `maccPerms`, visited in the order `order`. `addr acc` is
`authtypes.NewModuleAddress(acc).String()`, a function of the cosmos-sdk. -/
def ModuleAccountAddrs (addr : GoString → String)
    (order : List (GoString × List GoString)) : GoMap String Bool :=
  order.foldl (fun modAccAddrs kv => modAccAddrs.set (addr kv.1) true) []

/-! ### `UnimplementedQueryServer` (query_grpc.pb.go) -/

/-- The gRPC status codes `codes.Code` that the file uses, and `OK`. -/
inductive Code where
  | OK
  | Unimplemented
  deriving DecidableEq, Repr

/-- A gRPC status error: code and message. -/
structure StatusError where
  code : Code
  message : String
  deriving DecidableEq, Repr

/-- Function `status.Errorf(c, format)` of grpc-go, called without format arguments and with a
format that holds no verb: the error of `status.New(c, format)`, which is `nil` for
the code `OK` and an error carrying code and message otherwise. -/
def status_Errorf (c : Code) (format : String) : Option StatusError :=
  if c = Code.OK then none else some { code := c, message := format }

/-- The method `UnimplementedQueryServer.Params`: response and error. -/
def UnimplementedQueryServer.Params {Ctx Req Resp : Type} (_ctx : Ctx) (_req : Req) :
    Option Resp × Option StatusError :=
  (none, status_Errorf Code.Unimplemented "method Params not implemented")

/-- The method `UnimplementedQueryServer.AnnualProvisions`: response and error. -/
def UnimplementedQueryServer.AnnualProvisions {Ctx Req Resp : Type} (_ctx : Ctx)
    (_req : Req) : Option Resp × Option StatusError :=
  (none, status_Errorf Code.Unimplemented "method AnnualProvisions not implemented")

/-- The method `UnimplementedQueryServer.LastDilutionTimestamp`: response and error. -/
def UnimplementedQueryServer.LastDilutionTimestamp {Ctx Req Resp : Type} (_ctx : Ctx)
    (_req : Req) : Option Resp × Option StatusError :=
  (none, status_Errorf Code.Unimplemented "method LastDilutionTimestamp not implemented")

/-! ### The laned mempool and the proposal handlers

`NewInitiaApp` builds its mempool and its proposal handlers with functions of the
packages `block-sdk` and `app/lanes`. The calls, their order and the configuration
values are those of app.go; what the called functions do is taken from the
specification (sections 3, 4 and 7), in definitions marked "Modelled from the spec".
-/

/-- Modelled from the spec: the decoded messages of a transaction (section 3, "decoded
message list"); the message types are declared in packages whose source is not at hand.
A message is either the auction bid message, with the bidder address, the bid amount as
it was decoded (a malformed one is negative) and the ordered hashes of the bundled
transactions, or any other message, known by its type. -/
inductive Msg where
  | auctionBid (bidder : Nat) (amount : Int) (bundle : List Nat)
  | other (typeURL : String)
  deriving DecidableEq, Repr

/-- Modelled from the spec: the transaction of section 3, whose declaration is not at
hand: raw bytes, decoded signer set, sequence, fee, gas limit, hash and the decoded
message list. -/
structure Tx where
  raw : List Byte
  hash : Nat
  signers : List Nat
  sequence : Nat
  fee : Nat
  gasLimit : Nat
  msgs : List Msg
  deriving DecidableEq, Repr

/-- Modelled from the spec: the `AuctionBid` of section 3, whose declaration is not at
hand: bidder address, non-negative bid amount, ordered sequence of bundled transaction
hashes. -/
structure AuctionBid where
  bidder : Nat
  amount : Nat
  bundle : List Nat
  deriving DecidableEq, Repr

/-- Modelled from the spec: the outcome of the bid extractor of section 4.2: not a bid, a
malformed bid, or a bid. -/
inductive Extracted where
  | notBid
  | malformed
  | bid (b : AuctionBid)
  deriving DecidableEq, Repr

/-- Modelled from the spec: the bid extractor of section 4.2 (the auction factory of
`mev.NewDefaultAuctionFactory`, package block-sdk, source not at hand). A transaction is
a bid when it carries exactly one bid message; a negative bid amount is a malformed
bid, told apart from "not a bid". -/
def Extract (tx : Tx) : Extracted :=
  match tx.msgs.filterMap (fun msg =>
      match msg with
      | Msg.auctionBid bidder amount bundle => some (bidder, amount, bundle)
      | Msg.other _ => none) with
  | [(bidder, amount, bundle)] =>
    if amount < 0 then Extracted.malformed
    else Extracted.bid { bidder := bidder, amount := amount.toNat, bundle := bundle }
  | _ => Extracted.notBid

/-- Modelled from the spec: the match of the MEV lane (section 4.3): the extractor reports
a bid. -/
def isBid (tx : Tx) : Bool :=
  match Extract tx with
  | Extracted.bid _ => true
  | _ => false

/-- The bid amount of a bid transaction, zero for any other transaction. -/
def bidAmount (tx : Tx) : Nat :=
  match Extract tx with
  | Extracted.bid b => b.amount
  | _ => 0

/-- The hashes of the bundle of a bid transaction, none for any other transaction. -/
def bundleHashes (tx : Tx) : List Nat :=
  match Extract tx with
  | Extracted.bid b => b.bundle
  | _ => []

/-- The struct `blockbase.LaneConfig`, as far as app.go fills it with values that are
not services (logger, encoder, decoder, signer extractor): the share of the block
reserved for the lane (`math.LegacyZeroDec()` is no share of its own) and the bound on
the number of transactions (zero is no bound). -/
structure LaneConfig where
  MaxBlockSpace : Nat
  MaxTxs : Nat
  deriving DecidableEq, Repr

/-- The names of the three lanes. -/
inductive LaneName where
  | mev
  | free
  | default
  deriving DecidableEq, Repr

/-- Modelled from the spec: the lane of section 3 (`block.Lane`, package block-sdk, source
not at hand): identity, match predicate, comparator (`outranks a b`: the lane ranks `a` strictly
higher than `b`), capacity bound (in `cfg`), and the admitted transactions, kept in the
order of their arrival. -/
structure Lane where
  name : LaneName
  cfg : LaneConfig
  Match : Tx → Bool
  outranks : Tx → Tx → Bool
  txs : List Tx

/-- Modelled from the spec: the errors of section 7 that the mempool returns. -/
inductive MempoolError where
  | NoMatchingLane
  | DuplicateTx
  | CapacityExceeded
  deriving DecidableEq, Repr

/-- Modelled from the spec: `Lane.Select()` of section 4.1: the contents of the lane in
descending priority order; the lane is not changed. -/
def Lane.Select (l : Lane) : List Tx :=
  l.txs.insertionSort (fun a b => l.outranks b a = false)

/-- Modelled from the spec: the lane's count is at its bound (section 4.1); a `MaxTxs` of
zero, as `NewInitiaApp` gives to the default lane, is no bound. -/
def Lane.atCapacity (l : Lane) : Bool :=
  decide (l.cfg.MaxTxs ≠ 0) && decide (l.cfg.MaxTxs ≤ l.txs.length)

/-- Modelled from the spec: `Lane.Insert` of section 4.1, without the duplicate check,
which looks at the whole mempool and is made by `LanedMempool.Insert`. A lane at its
bound takes the transaction only if it outranks the lowest-priority member, which is
then evicted and returned to the caller; otherwise `CapacityExceeded`. -/
def Lane.Insert (l : Lane) (tx : Tx) : Except MempoolError (Lane × Option Tx) :=
  if l.atCapacity then
    match l.Select.getLast? with
    | some low =>
      if l.outranks tx low then
        Except.ok
          ({ l with txs := l.txs.filter (fun t => decide (t.hash ≠ low.hash)) ++ [tx] },
            some low)
      else Except.error MempoolError.CapacityExceeded
    | none => Except.error MempoolError.CapacityExceeded
  else Except.ok ({ l with txs := l.txs ++ [tx] }, none)

/-- Modelled from the spec: `Lane.Remove(hashes)` of section 4.1: deletes all matching
entries, no-op for hashes not present. -/
def Lane.Remove (l : Lane) (hashes : List Nat) : Lane :=
  { l with txs := l.txs.filter (fun t => decide (t.hash ∉ hashes)) }

/-- Modelled from the spec: the laned mempool of section 4.5 (`block.LanedMempool`,
package block-sdk, source not at hand): the lanes in their fixed priority list. -/
structure LanedMempool where
  registry : List Lane

/-- Modelled from the spec: the constructor
`block.NewLanedMempool(logger, includeValidateBasic, lanes...)` of the package block-sdk,
source not at hand: by section 4.5 the mempool holds the given lanes in the given order. -/
def NewLanedMempool (_includeValidateBasic : Bool) (lanes : List Lane) : LanedMempool :=
  { registry := lanes }

/-- All transactions held by the mempool, lane by lane. -/
def LanedMempool.allTxs (m : LanedMempool) : List Tx :=
  m.registry.flatMap (fun l => l.txs)

/-- The hash is held by some lane of the mempool. -/
def LanedMempool.Contains (m : LanedMempool) (hash : Nat) : Bool :=
  m.allTxs.any (fun t => t.hash == hash)

/-- Modelled from the spec: lane assignment (section 4.1): the first lane of the list
whose predicate matches, with its position. -/
def firstMatch : List Lane → Tx → Option (Nat × Lane)
  | [], _ => none
  | l :: rest, tx =>
    if l.Match tx then some (0, l)
    else (firstMatch rest tx).map (fun r => (r.1 + 1, r.2))

/-- Modelled from the spec: insertion into the first lane of the list whose predicate
matches (section 4.5). -/
def insertFirstMatch : List Lane → Tx → Except MempoolError (List Lane × Option Tx)
  | [], _ => Except.error MempoolError.NoMatchingLane
  | l :: rest, tx =>
    if l.Match tx then
      match l.Insert tx with
      | Except.ok (l', evicted) => Except.ok (l' :: rest, evicted)
      | Except.error e => Except.error e
    else
      match insertFirstMatch rest tx with
      | Except.ok (rest', evicted) => Except.ok (l :: rest', evicted)
      | Except.error e => Except.error e

/-- Modelled from the spec: `LanedMempool.Insert` of sections 4.1 and 4.5: `DuplicateTx`
if the hash is present anywhere in the mempool, else delegation to the first matching
lane, `NoMatchingLane` if none matches. An evicted transaction is handed back to the
caller (the admission boundary) with the new state. -/
def LanedMempool.Insert (m : LanedMempool) (tx : Tx) :
    Except MempoolError (LanedMempool × Option Tx) :=
  if m.Contains tx.hash then Except.error MempoolError.DuplicateTx
  else
    match insertFirstMatch m.registry tx with
    | Except.ok (registry, evicted) => Except.ok ({ registry := registry }, evicted)
    | Except.error e => Except.error e

/-- Modelled from the spec: `LanedMempool.Remove(hashes)` of section 4.5: broadcast to
every lane. -/
def LanedMempool.Remove (m : LanedMempool) (hashes : List Nat) : LanedMempool :=
  { registry := m.registry.map (fun l => l.Remove hashes) }

/-- Modelled from the spec: the budget of a block: the two arguments of
`Select(byteBudget, txBudget)` of section 4.5, which section 4.7 calls the
"block-size/gas budget": a bound on the serialized bytes and a bound on the gas. -/
structure Budget where
  byteBudget : Nat
  gasBudget : Nat
  deriving DecidableEq, Repr

/-- The transaction with the given hash, looked up in the whole mempool. -/
def LanedMempool.resolve (m : LanedMempool) (hash : Nat) : Option Tx :=
  m.allTxs.find? (fun t => t.hash == hash)

/-- The transactions with the given hashes, in order, if the mempool holds all of them. -/
def LanedMempool.resolveAll (m : LanedMempool) : List Nat → Option (List Tx)
  | [] => some []
  | hash :: rest =>
    match m.resolve hash, LanedMempool.resolveAll m rest with
    | some t, some ts => some (t :: ts)
    | _, _ => none

/-- Modelled from the spec: the hashes that must follow a transaction of the lane in a
block (section 4.7, "any MEV-lane bundle is contiguous and complete"): the bundle of a
bid in the MEV lane, nothing in the other lanes. -/
def Lane.bundleOf (l : Lane) (tx : Tx) : List Nat :=
  if l.name = LaneName.mev then bundleHashes tx else []

/-- Modelled from the spec: what one transaction of a lane contributes to a block
(sections 3 and 4.5): the transaction followed by its whole bundle, in the order the
bidder pays for. The bundled transactions are those resident in the mempool under the
bundled hashes (section 4.6 a); a bid whose bundle cannot be resolved contributes
nothing, since a bundle is included whole or not at all. -/
def LanedMempool.unit (m : LanedMempool) (l : Lane) (tx : Tx) : Option (List Tx) :=
  (m.resolveAll (l.bundleOf tx)).map (fun bundle => tx :: bundle)

/-- The selection of one lane: its `Select()` output, every transaction with its bundle. -/
def LanedMempool.laneUnits (m : LanedMempool) (l : Lane) : List (List Tx) :=
  l.Select.filterMap (m.unit l)

/-- The serialized size of a sequence of transactions, in bytes. -/
def totalBytes (txs : List Tx) : Nat := (txs.map (fun t => t.raw.length)).sum

/-- The gas of a sequence of transactions. -/
def totalGas (txs : List Tx) : Nat := (txs.map (fun t => t.gasLimit)).sum

/-- Modelled from the spec: the budget rule of section 4.5: units are taken in order
until one does not fit in what is left of either budget, and nothing is taken after
it. -/
def takeUnits : Nat → Nat → List (List Tx) → List (List Tx)
  | _, _, [] => []
  | bytes, gas, u :: rest =>
    if totalBytes u ≤ bytes ∧ totalGas u ≤ gas then
      u :: takeUnits (bytes - totalBytes u) (gas - totalGas u) rest
    else []

/-- Modelled from the spec: `LanedMempool.Select(byteBudget, txBudget)` of section 4.5:
drains the lanes in priority order, concatenating each lane's `Select()` output, and
stops once either budget is reached; a bid and its bundle are taken whole or not at
all. The selection of a lane is not filtered: a bundled transaction that is resident in
a lane is also part of the selection of that lane. -/
def LanedMempool.Select (m : LanedMempool) (budget : Budget) : List Tx :=
  (takeUnits budget.byteBudget budget.gasBudget (m.registry.flatMap m.laneUnits)).flatten

/-- The services that `NewInitiaApp` passes to the lanes and the proposal handler and
that are defined outside app.go: the transaction decoder `app.txConfig.TxDecoder()`,
the match handler `applanes.FreeLaneMatchHandler()` of the free lane and the comparator
`blockbase.DefaultTxPriority()` of the free lane. -/
structure Services where
  TxDecoder : List Byte → Option Tx
  FreeLaneMatchHandler : Tx → Bool
  DefaultTxPriority : Tx → Tx → Bool

/-- Modelled from the spec: the errors of section 7 with which a block is rejected. -/
inductive ProposalError where
  | DecodeError
  | OrderingViolation
  deriving DecidableEq, Repr

/-- Modelled from the spec: the vote of `ProcessProposal` (section 6): accept or
reject. -/
inductive Verdict where
  | accept
  | reject (e : ProposalError)
  deriving DecidableEq, Repr

/-- Decoding of every transaction of a block. -/
def decodeAll (decode : List Byte → Option Tx) : List (List Byte) → Option (List Tx)
  | [] => some []
  | bz :: rest =>
    match decode bz, decodeAll decode rest with
    | some t, some ts => some (t :: ts)
    | _, _ => none

/-- Modelled from the spec: the order check of the proposal verifier (section 4.7), one
pass over the decoded block. `cur` is the position of the lane of the last transaction
seen outside a bundle and `prev` that transaction; `pending` are the hashes of the
bundle being read. Lane assignment is re-derived for every transaction (first matching
lane); lanes must appear in the fixed priority order; within a lane no transaction may
outrank the one before it; the bundle of a bid must follow it at once, whole and in
order. -/
def verifyOrder (lanes : List Lane) : Nat → Option Tx → List Nat → List Tx → Bool
  | _, _, [], [] => true
  | _, _, _ :: _, [] => false
  | cur, prev, hash :: pending, tx :: rest =>
    (tx.hash == hash) && verifyOrder lanes cur prev pending rest
  | cur, prev, [], tx :: rest =>
    match firstMatch lanes tx with
    | none => false
    | some (j, lane) =>
      decide (cur ≤ j) &&
      (if j = cur then
        match prev with
        | some p => !(lane.outranks tx p)
        | none => true
       else true) &&
      verifyOrder lanes j (some tx) (lane.bundleOf tx) rest

/-- Modelled from the spec: `PrepareProposal` (Build) of section 4.7, the handler of
`blockabci.NewProposalHandler` (package block-sdk, source not at hand): `Select` with the
budget of the height, every selected transaction serialized to its raw bytes. -/
def PrepareProposal (m : LanedMempool) (_height : Nat) (budget : Budget) :
    List (List Byte) :=
  (m.Select budget).map (fun t => t.raw)

/-- Modelled from the spec: `ProcessProposal` (Verify) of section 4.7, the handler of
`blockabci.NewProposalHandler` (package block-sdk, source not at hand). The block is
decoded, its total size and gas are held against the budget and its order is checked
with the match predicates and comparators of the lanes of `m`; the transactions held by
`m` are not looked at. -/
def ProcessProposal (decode : List Byte → Option Tx) (m : LanedMempool) (_height : Nat)
    (budget : Budget) (block : List (List Byte)) : Verdict :=
  match decodeAll decode block with
  | none => Verdict.reject ProposalError.DecodeError
  | some txs =>
    if (block.map List.length).sum ≤ budget.byteBudget ∧ totalGas txs ≤ budget.gasBudget ∧
        verifyOrder m.registry 0 none [] txs = true then
      Verdict.accept
    else Verdict.reject ProposalError.OrderingViolation

/-- Modelled from the spec: the comparator of the MEV lane (section 4.3): bid amount
descending, ties broken by transaction hash ascending. -/
def bidOutranks (a b : Tx) : Bool :=
  decide (bidAmount b < bidAmount a ∨ (bidAmount a = bidAmount b ∧ a.hash < b.hash))

/-- Numerator of the fee per gas of a transaction (a gas limit of zero counts as no fee
per gas). -/
def feeNum (t : Tx) : Nat := if t.gasLimit = 0 then 0 else t.fee

/-- Denominator of the fee per gas of a transaction. -/
def feeDen (t : Tx) : Nat := if t.gasLimit = 0 then 1 else t.gasLimit

/-- Modelled from the spec: the comparator of the default lane (section 4.4): fee per gas
descending, ties broken by hash ascending. The fractions `fee / gasLimit` are compared
exactly, by cross multiplication. -/
def feeOutranks (a b : Tx) : Bool :=
  decide (feeNum b * feeDen a < feeNum a * feeDen b ∨
    (feeNum a * feeDen b = feeNum b * feeDen a ∧ a.hash < b.hash))

/-- Modelled from the spec: the constructor `mev.NewMEVLane(cfg, factory)` (package
block-sdk, source not at hand): the lane of
section 4.3, whose match delegates to the extractor. -/
def NewMEVLane (cfg : LaneConfig) : Lane :=
  { name := LaneName.mev, cfg := cfg,
    Match := isBid, outranks := bidOutranks, txs := [] }

/-- Modelled from the spec: the constructor `freelane.NewFreeLane(cfg, txPriority,
matchFn)` (package block-sdk, source not at hand): the free lane of section 4.4 with the
given comparator and match handler. -/
def NewFreeLane (cfg : LaneConfig) (txPriority : Tx → Tx → Bool) (matchFn : Tx → Bool) :
    Lane :=
  { name := LaneName.free, cfg := cfg, Match := matchFn, outranks := txPriority, txs := [] }

/-- Modelled from the spec: the constructor `baselane.NewDefaultLane(cfg)` (package
block-sdk, source not at hand): the default
lane of section 4.4, which matches every transaction that reaches it. -/
def NewDefaultLane (cfg : LaneConfig) : Lane :=
  { name := LaneName.default, cfg := cfg, Match := fun _ => true, outranks := feeOutranks,
    txs := [] }

/-- The local `mevConfig` of `NewInitiaApp`. -/
def NewInitiaApp.mevConfig : LaneConfig := { MaxBlockSpace := 0, MaxTxs := 100 }

/-- The local `mevLane` of `NewInitiaApp`. -/
def NewInitiaApp.mevLane : Lane := NewMEVLane NewInitiaApp.mevConfig

/-- The local `freeConfig` of `NewInitiaApp`. -/
def NewInitiaApp.freeConfig : LaneConfig := { MaxBlockSpace := 0, MaxTxs := 10 }

/-- The local `freeLane` of `NewInitiaApp`. -/
def NewInitiaApp.freeLane (sv : Services) : Lane :=
  NewFreeLane NewInitiaApp.freeConfig sv.DefaultTxPriority sv.FreeLaneMatchHandler

/-- The local `defaultLaneConfig` of `NewInitiaApp`. -/
def NewInitiaApp.defaultLaneConfig : LaneConfig := { MaxBlockSpace := 0, MaxTxs := 0 }

/-- The local `defaultLane` of `NewInitiaApp`. -/
def NewInitiaApp.defaultLane : Lane := NewDefaultLane NewInitiaApp.defaultLaneConfig

/-- The local `lanes` of `NewInitiaApp`: `[]block.Lane{mevLane, freeLane, defaultLane}`. -/
def NewInitiaApp.lanes (sv : Services) : List Lane :=
  [NewInitiaApp.mevLane, NewInitiaApp.freeLane sv, NewInitiaApp.defaultLane]

/-- The local `mempool` of `NewInitiaApp`, which `app.SetMempool(mempool)` installs:
`block.NewLanedMempool(app.Logger(), true, lanes...)`. -/
def NewInitiaApp.mempool (sv : Services) : LanedMempool :=
  NewLanedMempool true (NewInitiaApp.lanes sv)

/-- The states of the mempool of the application: the one `NewInitiaApp` installs and
every state a successful `Insert` or a `Remove` leads to. -/
inductive Reachable (sv : Services) : LanedMempool → Prop where
  | init : Reachable sv (NewInitiaApp.mempool sv)
  | insert {m m' : LanedMempool} {tx : Tx} {evicted : Option Tx} :
      Reachable sv m → m.Insert tx = Except.ok (m', evicted) → Reachable sv m'
  | remove {m : LanedMempool} (hashes : List Nat) :
      Reachable sv m → Reachable sv (m.Remove hashes)

/-- The lane with other contents. -/
def Lane.withTxs (l : Lane) (txs : List Tx) : Lane := { l with txs := txs }

/-- The mempool of the application with the contents `A` of the MEV lane, `B` of the free
lane and `C` of the default lane. -/
def NewInitiaApp.mempoolWith (sv : Services) (A B C : List Tx) : LanedMempool :=
  { registry := [NewInitiaApp.mevLane.withTxs A, (NewInitiaApp.freeLane sv).withTxs B,
      NewInitiaApp.defaultLane.withTxs C] }

/-- The invariant of the mempool of the application: the three lanes in their order,
every transaction in the first lane that matches it, no hash held twice. -/
def WellFormed (sv : Services) (m : LanedMempool) : Prop :=
  ∃ A B C, m = NewInitiaApp.mempoolWith sv A B C ∧
    (∀ t ∈ A, isBid t = true) ∧
    (∀ t ∈ B, isBid t = false ∧ sv.FreeLaneMatchHandler t = true) ∧
    (∀ t ∈ C, isBid t = false ∧ sv.FreeLaneMatchHandler t = false) ∧
    ((A ++ B ++ C).map (fun t => t.hash)).Nodup

/-- A sequence of units (a transaction followed by its bundle) that the order check
accepts when it reads them at the lane position `cur` after the transaction `prev`. -/
inductive GoodFrom (lanes : List Lane) : Nat → Option Tx → List (List Tx) → Prop where
  | nil (cur : Nat) (prev : Option Tx) : GoodFrom lanes cur prev []
  | cons {cur : Nat} {prev : Option Tx} {t : Tx} {bs : List Tx} {j : Nat} {lane : Lane}
      {U : List (List Tx)} :
      firstMatch lanes t = some (j, lane) → cur ≤ j →
      (j = cur → ∀ p, prev = some p → lane.outranks t p = false) →
      bs.map (fun b => b.hash) = lane.bundleOf t →
      GoodFrom lanes j (some t) U → GoodFrom lanes cur prev ((t :: bs) :: U)

/-- What the ordering logic needs of a comparator passed in from outside: no two
transactions outrank each other, "does not outrank" is transitive, and of two
transactions with different hashes one outranks the other (section 4.3: a
deterministic, total order). -/
structure LawfulPriority (P : Tx → Tx → Bool) : Prop where
  asymm : ∀ a b, P a b = true → P b a = false
  negTrans : ∀ a b c, P b a = false → P c b = false → P c a = false
  total : ∀ a b, a.hash ≠ b.hash → P a b = true ∨ P b a = true

/-- In the sequence `l`, the transaction `a` comes before the transaction `b`. -/
def precedes (l : List Tx) (a b : Tx) : Prop := l.indexOf a < l.indexOf b

/-- The whole selection of one lane, before any budget: its `Select()` output, every bid
followed by its bundle. -/
def LanedMempool.laneSelection (m : LanedMempool) (l : Lane) : List Tx :=
  (m.laneUnits l).flatten

/-! ### Example data

A small mempool on which the general statements are instantiated: one bid with a bundle
of two transactions, one fee-exempt transaction, three fee-paying transactions. -/

/-- An example transaction with one byte of raw data. -/
def Example.mkTx (raw : Byte) (hash fee gasLimit : Nat) (msgs : List Msg) : Tx :=
  { raw := [raw], hash := hash, signers := [], sequence := 0, fee := fee,
    gasLimit := gasLimit, msgs := msgs }

/-- A fee-exempt transaction. -/
def Example.freeTx : Tx := Example.mkTx 1 1 0 10 [Msg.other "exempt"]

/-- A transaction paying 5 per gas unit. -/
def Example.fee5 : Tx := Example.mkTx 5 5 50 10 [Msg.other "send"]

/-- A transaction paying 3 per gas unit. -/
def Example.fee3 : Tx := Example.mkTx 3 3 30 10 [Msg.other "send"]

/-- A transaction paying 1 per gas unit. -/
def Example.fee1 : Tx := Example.mkTx 2 2 10 10 [Msg.other "send"]

/-- A bid of 100 whose bundle is the transactions with the hashes 3 and 2. -/
def Example.bidTx : Tx := Example.mkTx 9 9 0 10 [Msg.auctionBid 77 100 [3, 2]]

/-- Example services: the decoder knows the five example transactions, the free lane
takes the transactions whose messages are all of the type "exempt", and compares like
the default lane. -/
def Example.services : Services :=
  { TxDecoder := fun bz =>
      [Example.freeTx, Example.fee5, Example.fee3, Example.fee1, Example.bidTx].find?
        (fun t => t.raw == bz),
    FreeLaneMatchHandler := fun tx =>
      !tx.msgs.isEmpty && tx.msgs.all (fun msg => decide (msg = Msg.other "exempt")),
    DefaultTxPriority := feeOutranks }

/-- The example mempool of scenario A: the MEV lane empty, the exempt transaction in the
free lane, the three fee-paying transactions in the default lane, in the order of
their arrival. -/
def Example.scenarioA : LanedMempool :=
  NewInitiaApp.mempoolWith Example.services [] [Example.freeTx]
    [Example.fee1, Example.fee5, Example.fee3]

/-- The example mempool of scenario A after the arrival of the bid. -/
def Example.withBid : LanedMempool :=
  NewInitiaApp.mempoolWith Example.services [Example.bidTx] [Example.freeTx]
    [Example.fee1, Example.fee5, Example.fee3]

/-- Every lane with a bound holds no more transactions than its bound. -/
def LanedMempool.WithinCapacity (m : LanedMempool) : Prop :=
  ∀ l ∈ m.registry, l.cfg.MaxTxs ≠ 0 → l.txs.length ≤ l.cfg.MaxTxs

/-- A bid of 50 from another bidder, with a bundle of one transaction. -/
def Example.bid50 : Tx := Example.mkTx 8 8 0 10 [Msg.auctionBid 78 50 [3]]

/-- The example mempool after the arrival of the bid of 100 and then of the bid of 50. -/
def Example.twoBids : LanedMempool :=
  NewInitiaApp.mempoolWith Example.services [Example.bidTx, Example.bid50] [] []

/-- The transactions of a decoded block that the order check reads as lane transactions:
the block without the members of bundles, which the check reads right behind their
bid. `pending` counts the members of the bundle being read. -/
def laneTransactions (lanes : List Lane) : List Nat → List Tx → List Tx
  | _, [] => []
  | _ :: pending, _ :: rest => laneTransactions lanes pending rest
  | [], tx :: rest =>
    tx :: laneTransactions lanes
      (match firstMatch lanes tx with
       | some (_, lane) => lane.bundleOf tx
       | none => []) rest

/-! ### The order of the modules (app.go) -/

/-- The module name constants that `NewInitiaApp` passes to the module manager, by the
identifier app.go uses for them. Different modules carry different names: the manager
keeps its modules in a map keyed by these names. -/
inductive ModuleName where
  | upgradetypes_ModuleName
  | capabilitytypes_ModuleName
  | rewardtypes_ModuleName
  | distrtypes_ModuleName
  | slashingtypes_ModuleName
  | evidencetypes_ModuleName
  | stakingtypes_ModuleName
  | authtypes_ModuleName
  | banktypes_ModuleName
  | govtypes_ModuleName
  | crisistypes_ModuleName
  | genutiltypes_ModuleName
  | authz_ModuleName
  | feegrant_ModuleName
  | group_ModuleName
  | paramstypes_ModuleName
  | movetypes_ModuleName
  | ibcexported_ModuleName
  | ibctransfertypes_ModuleName
  | ibcnfttransfertypes_ModuleName
  | icatypes_ModuleName
  | icaauthtypes_ModuleName
  | ibcfeetypes_ModuleName
  | routertypes_ModuleName
  | ibcpermtypes_ModuleName
  | consensusparamtypes_ModuleName
  | auctiontypes_ModuleName
  | ophosttypes_ModuleName
  deriving DecidableEq, Repr

open ModuleName in
/-- The list that `NewInitiaApp` passes to `app.mm.SetOrderBeginBlockers`, in the order of
the call. -/
def NewInitiaApp.orderBeginBlockers : List ModuleName :=
  [ upgradetypes_ModuleName,
    capabilitytypes_ModuleName,
    rewardtypes_ModuleName,
    distrtypes_ModuleName,
    slashingtypes_ModuleName,
    evidencetypes_ModuleName,
    stakingtypes_ModuleName,
    authtypes_ModuleName,
    banktypes_ModuleName,
    govtypes_ModuleName,
    crisistypes_ModuleName,
    genutiltypes_ModuleName,
    authz_ModuleName,
    feegrant_ModuleName,
    group_ModuleName,
    paramstypes_ModuleName,
    movetypes_ModuleName,
    ibcexported_ModuleName,
    ibctransfertypes_ModuleName,
    ibcnfttransfertypes_ModuleName,
    icatypes_ModuleName,
    icaauthtypes_ModuleName,
    ibcfeetypes_ModuleName,
    routertypes_ModuleName,
    ibcpermtypes_ModuleName,
    consensusparamtypes_ModuleName,
    auctiontypes_ModuleName,
    ophosttypes_ModuleName ]

open ModuleName in
/-- The list that `NewInitiaApp` passes to `app.mm.SetOrderInitGenesis`, in the order of
the call. -/
def NewInitiaApp.orderInitGenesis : List ModuleName :=
  [ capabilitytypes_ModuleName,
    authtypes_ModuleName,
    movetypes_ModuleName,
    banktypes_ModuleName,
    distrtypes_ModuleName,
    stakingtypes_ModuleName,
    slashingtypes_ModuleName,
    govtypes_ModuleName,
    rewardtypes_ModuleName,
    crisistypes_ModuleName,
    genutiltypes_ModuleName,
    evidencetypes_ModuleName,
    authz_ModuleName,
    group_ModuleName,
    paramstypes_ModuleName,
    upgradetypes_ModuleName,
    feegrant_ModuleName,
    ibcexported_ModuleName,
    ibctransfertypes_ModuleName,
    ibcnfttransfertypes_ModuleName,
    icatypes_ModuleName,
    icaauthtypes_ModuleName,
    ibcfeetypes_ModuleName,
    routertypes_ModuleName,
    ibcpermtypes_ModuleName,
    consensusparamtypes_ModuleName,
    auctiontypes_ModuleName,
    ophosttypes_ModuleName ]

/-! ## Theorems -/

/-! ### Go maps -/

theorem GoMap.get_set {κ ν : Type} [DecidableEq κ] (m : GoMap κ ν) (k k' : κ) (v : ν) :
    (GoMap.set m k v).get k' = if k = k' then some v else GoMap.get m k' := by
  induction m with
  | nil =>
    by_cases h : k = k' <;> simp [GoMap.set, GoMap.get, h]
  | cons e rest ih =>
    obtain ⟨k0, v0⟩ := e
    by_cases h0 : k0 = k
    · subst h0
      by_cases h : k0 = k' <;> simp [GoMap.set, GoMap.get, h]
    · by_cases h : k = k'
      · subst h
        simp [GoMap.set, GoMap.get, h0, ih]
      · by_cases h1 : k0 = k'
        · subst h1
          simp [GoMap.set, GoMap.get, h0, h]
        · simp [GoMap.set, GoMap.get, h0, h1, ih, h]

theorem GoMap.keys_set {κ ν : Type} [DecidableEq κ] (m : GoMap κ ν) (k k' : κ) (v : ν) :
    k' ∈ (GoMap.set m k v).keys ↔ k' = k ∨ k' ∈ GoMap.keys m := by
  induction m with
  | nil => simp [GoMap.set, GoMap.keys]
  | cons e rest ih =>
    obtain ⟨k0, v0⟩ := e
    by_cases h0 : k0 = k
    · subst h0
      simp [GoMap.set, GoMap.keys]
    · have ih' : k' ∈ List.map Prod.fst (GoMap.set rest k v) ↔
          k' = k ∨ k' ∈ List.map Prod.fst rest := ih
      simp only [GoMap.set, GoMap.keys, h0, if_false, List.map_cons, List.mem_cons, ih']
      tauto

theorem GoMap.mem_set {κ ν : Type} [DecidableEq κ] (m : GoMap κ ν) (k : κ) (v : ν)
    (e : κ × ν) (he : e ∈ GoMap.set m k v) : e = (k, v) ∨ e ∈ m := by
  induction m with
  | nil => simpa [GoMap.set] using he
  | cons e0 rest ih =>
    obtain ⟨k0, v0⟩ := e0
    by_cases h0 : k0 = k
    · simp only [GoMap.set, h0, if_true, List.mem_cons] at he
      rcases he with he | he
      · exact Or.inl he
      · exact Or.inr (List.mem_cons_of_mem _ he)
    · simp only [GoMap.set, h0, if_false, List.mem_cons] at he
      rcases he with he | he
      · exact Or.inr (by simp [he])
      · rcases ih he with h | h
        · exact Or.inl h
        · exact Or.inr (List.mem_cons_of_mem _ h)

theorem GoMap.get_eq_none {κ ν : Type} [DecidableEq κ] (m : GoMap κ ν) (k : κ) :
    GoMap.get m k = none ↔ k ∉ GoMap.keys m := by
  induction m with
  | nil => simp [GoMap.get, GoMap.keys]
  | cons e rest ih =>
    obtain ⟨k0, v0⟩ := e
    have ih' : GoMap.get rest k = none ↔ k ∉ List.map Prod.fst rest := ih
    by_cases h0 : k0 = k
    · subst h0
      simp [GoMap.get, GoMap.keys]
    · have h1 : ¬ k = k0 := fun h => h0 h.symm
      simp [GoMap.get, GoMap.keys, h0, h1, ih']

/-- Copying the entries of `order` one by one into `m0`: the value found under a key. -/
theorem GoMap.get_foldl_set {κ ν : Type} [DecidableEq κ] (order : List (κ × ν))
    (m0 : GoMap κ ν) (k : κ) (hnd : (order.map Prod.fst).Nodup) :
    (order.foldl (fun m kv => GoMap.set m kv.1 kv.2) m0).get k =
      match GoMap.get order k with
      | some v => some v
      | none => GoMap.get m0 k := by
  induction order generalizing m0 with
  | nil => simp [GoMap.get]
  | cons e rest ih =>
    obtain ⟨k0, v0⟩ := e
    simp only [List.map_cons, List.nodup_cons] at hnd
    rw [List.foldl_cons, ih _ hnd.2]
    by_cases h0 : k0 = k
    · subst h0
      have hnone : GoMap.get rest k0 = none := (GoMap.get_eq_none rest k0).2 hnd.1
      simp [hnone, GoMap.get_set, GoMap.get]
    · simp only [GoMap.get_set, GoMap.get, h0, if_false]

/-- The value under a key does not depend on the order of the entries of a map. -/
theorem GoMap.get_perm {κ ν : Type} [DecidableEq κ] {l₁ l₂ : GoMap κ ν} (hp : List.Perm l₁ l₂)
    (hnd : (l₁.map Prod.fst).Nodup) (k : κ) : GoMap.get l₁ k = GoMap.get l₂ k := by
  induction hp with
  | nil => rfl
  | cons e _ ih =>
    obtain ⟨k0, v0⟩ := e
    simp only [List.map_cons, List.nodup_cons] at hnd
    simp [GoMap.get, ih hnd.2]
  | swap e₁ e₂ l =>
    obtain ⟨k1, v1⟩ := e₁
    obtain ⟨k2, v2⟩ := e₂
    simp only [List.map_cons, List.nodup_cons, List.mem_cons, not_or] at hnd
    by_cases h1 : k1 = k
    · subst h1
      have : ¬ k2 = k1 := hnd.1.1
      simp [GoMap.get, this]
    · simp [GoMap.get, h1]
  | trans h₁ _ ih₁ ih₂ =>
    exact (ih₁ hnd).trans (ih₂ ((h₁.map Prod.fst).nodup_iff.1 hnd))

theorem maccPerms_keys_nodup : (maccPerms.map Prod.fst).Nodup := by
  decide

/-! ### The map store -/

theorem MapStore.deref_assign_of_ne (h : MapStore) (r r' : MapRef) (k : GoString)
    (v : List GoString) (hne : r ≠ r') : (h.assign r k v).deref r' = h.deref r' := by
  simp [MapStore.assign, MapStore.deref, List.getElem?_set_ne hne]

theorem MapStore.deref_remove_of_ne (h : MapStore) (r r' : MapRef) (k : GoString)
    (hne : r ≠ r') : (h.remove r k).deref r' = h.deref r' := by
  simp [MapStore.remove, MapStore.deref, List.getElem?_set_ne hne]

theorem MapStore.deref_assign_self (h : MapStore) (r : MapRef) (k : GoString)
    (v : List GoString) (hr : r < h.length) :
    (h.assign r k v).deref r = (h.deref r).set k v := by
  simp [MapStore.assign, MapStore.deref, hr]

theorem MapStore.length_assign (h : MapStore) (r : MapRef) (k : GoString)
    (v : List GoString) : (h.assign r k v).length = h.length := by
  simp [MapStore.assign]

/-- The store after the copying loop of `GetMaccPerms`: only the new map has changed,
and it holds the entries assigned to it. -/
theorem MapStore.foldl_assign (order : List (GoString × List GoString)) (h : MapStore)
    (r : MapRef) (hr : r < h.length) :
    let h' := order.foldl (fun hs kv => MapStore.assign hs r kv.1 kv.2) h
    h'.length = h.length ∧
    h'.deref r = order.foldl (fun m kv => GoMap.set m kv.1 kv.2) (h.deref r) ∧
    ∀ r', r' ≠ r → h'.deref r' = h.deref r' := by
  induction order generalizing h with
  | nil => simp
  | cons e rest ih =>
    have hr' : r < (h.assign r e.1 e.2).length := by
      rw [MapStore.length_assign]; exact hr
    obtain ⟨h1, h2, h3⟩ := ih (h.assign r e.1 e.2) hr'
    refine ⟨?_, ?_, ?_⟩
    · simpa [MapStore.length_assign] using h1
    · simpa [MapStore.deref_assign_self h r e.1 e.2 hr] using h2
    · intro r' hne
      have := h3 r' hne
      simpa [MapStore.deref_assign_of_ne h r r' e.1 e.2 (Ne.symm hne)] using this

/-! ### Claims about app.go and query_grpc.pb.go -/

/-- C2: for every byte slice `addr`, the function returned by `VerifyAddressLen` returns
nil exactly when `len(addr)` is 20 or equals `movetypes.AddressBytesLength`, and returns
`ErrInvalidAddress` for every other length. -/
theorem VerifyAddressLen_spec (AddressBytesLength : Int) (addr : List Byte) :
    (VerifyAddressLen AddressBytesLength addr = none ↔
      (addr.length = 20 ∨ (addr.length : Int) = AddressBytesLength)) ∧
    VerifyAddressLen AddressBytesLength addr =
      (if addr.length = 20 ∨ (addr.length : Int) = AddressBytesLength then none
       else some SdkError.ErrInvalidAddress) := by
  have hcast : ((addr.length : Int) = 20) ↔ addr.length = 20 := by
    constructor
    · intro h; exact_mod_cast h
    · intro h; exact_mod_cast h
  by_cases h1 : addr.length = 20
  · simp [VerifyAddressLen, h1]
  · by_cases h2 : (addr.length : Int) = AddressBytesLength
    · simp [VerifyAddressLen, h2]
    · have h1' : ¬ ((addr.length : Int) = 20) := fun h => h1 (hcast.1 h)
      simp [VerifyAddressLen, h1, h2, h1']

/-- C3: for every `txBytes`, `InitiaApp.Simulate` returns the result and the error of
`BaseApp.Simulate` unchanged, with a `GasInfo` whose `GasWanted` is unchanged and whose
`GasUsed` is the base `GasUsed` plus `FeeDeductionGasAmount` modulo `2 ^ 64`, whether or
not the base simulation returned an error. -/
theorem Simulate_adds_fee_deduction_gas {Result Err : Type}
    (baseSimulate : List Byte → GasInfo × Option Result × Option Err)
    (FeeDeductionGasAmount : Nat) (txBytes : List Byte) :
    (Simulate baseSimulate FeeDeductionGasAmount txBytes).2.1 = (baseSimulate txBytes).2.1 ∧
    (Simulate baseSimulate FeeDeductionGasAmount txBytes).2.2 = (baseSimulate txBytes).2.2 ∧
    (Simulate baseSimulate FeeDeductionGasAmount txBytes).1.GasWanted =
      (baseSimulate txBytes).1.GasWanted ∧
    (Simulate baseSimulate FeeDeductionGasAmount txBytes).1.GasUsed =
      ((baseSimulate txBytes).1.GasUsed + FeeDeductionGasAmount) % 2 ^ 64 := by
  simp [Simulate]

/-- C4: for every handler `h` and request `req`, after `SetCheckTx(h)` the call
`CheckTx(req)` is exactly the call `h(req)` (result and effect on the node state, a
panic for a nil `h`), and `SetCheckTx` changes no field of the app other than
`checkTxHandler`. -/
theorem CheckTx_after_SetCheckTx {Others Req Resp World : Type}
    (app : InitiaApp Others Req Resp World) (h : CheckTxFn Req Resp World) (req : Req)
    (w : World) :
    (app.SetCheckTx h).CheckTx req w = h.map (fun handler => handler req w) ∧
    (app.SetCheckTx h).checkTxHandler = h ∧
    (app.SetCheckTx h).others = app.others := by
  cases h <;> simp [InitiaApp.SetCheckTx, InitiaApp.CheckTx]

/-- C5: `GetMaccPerms` returns a copy of the module account permissions. Whatever the
order in which the loop visits `maccPerms`, the returned map has the same keys as
`maccPerms` with the same permission list under each key, it is a new map (a reference
other than that of `maccPerms`), the call leaves `maccPerms` unchanged, and inserting
or deleting a key in the returned map leaves `maccPerms` unchanged, so that a later
`GetMaccPerms` call again returns the contents of `maccPerms`. -/
theorem GetMaccPerms_copy (h : MapStore) (order order' : List (GoString × List GoString))
    (hh : h.deref maccPermsRef = maccPerms) (ho : order.Perm maccPerms)
    (ho' : order'.Perm maccPerms) :
    (∀ k, ((GetMaccPerms order h).2.deref (GetMaccPerms order h).1).get k =
        GoMap.get maccPerms k) ∧
    (∀ k, k ∈ ((GetMaccPerms order h).2.deref (GetMaccPerms order h).1).keys ↔
        k ∈ GoMap.keys maccPerms) ∧
    (GetMaccPerms order h).1 ≠ maccPermsRef ∧
    (GetMaccPerms order h).2.deref maccPermsRef = maccPerms ∧
    (∀ k v, (((GetMaccPerms order h).2.assign (GetMaccPerms order h).1 k v).deref
        maccPermsRef = maccPerms) ∧
      ∀ k', ((GetMaccPerms order'
          ((GetMaccPerms order h).2.assign (GetMaccPerms order h).1 k v)).2.deref
            (GetMaccPerms order'
              ((GetMaccPerms order h).2.assign (GetMaccPerms order h).1 k v)).1).get k' =
          GoMap.get maccPerms k') ∧
    (∀ k, (((GetMaccPerms order h).2.remove (GetMaccPerms order h).1 k).deref
        maccPermsRef = maccPerms) ∧
      ∀ k', ((GetMaccPerms order'
          ((GetMaccPerms order h).2.remove (GetMaccPerms order h).1 k)).2.deref
            (GetMaccPerms order'
              ((GetMaccPerms order h).2.remove (GetMaccPerms order h).1 k)).1).get k' =
          GoMap.get maccPerms k') := by
  -- what one call does, on any store that holds `maccPerms` behind its reference
  have call : ∀ (g : MapStore) (ord : List (GoString × List GoString)),
      g.deref maccPermsRef = maccPerms → ord.Perm maccPerms →
      (∀ k, ((GetMaccPerms ord g).2.deref (GetMaccPerms ord g).1).get k =
          GoMap.get maccPerms k) ∧
      (GetMaccPerms ord g).1 ≠ maccPermsRef ∧
      (GetMaccPerms ord g).2.deref maccPermsRef = maccPerms := by
    intro g ord hg hord
    have hlen : 0 < g.length := by
      rcases Nat.eq_zero_or_pos g.length with h0 | h0
      · have : g = [] := List.eq_nil_of_length_eq_zero h0
        subst this
        have : ([] : GoMap GoString (List GoString)) = maccPerms := by
          simpa [MapStore.deref, maccPermsRef] using hg
        exact absurd this (by decide)
      · exact h0
    have hr : g.length < (g ++ [[]]).length := by simp
    obtain ⟨-, h2, h3⟩ := MapStore.foldl_assign ord (g ++ [[]]) g.length hr
    have hnew : MapStore.deref (g ++ [[]]) g.length = [] := by
      simp [MapStore.deref]
    have hold : MapStore.deref (g ++ [[]]) maccPermsRef = g.deref maccPermsRef := by
      simp [MapStore.deref, maccPermsRef, List.getElem?_append_left hlen]
    have hnd : (ord.map Prod.fst).Nodup :=
      ((hord.map Prod.fst).nodup_iff).2 maccPerms_keys_nodup
    refine ⟨?_, ?_, ?_⟩
    · intro k
      show (MapStore.deref (List.foldl _ (g ++ [[]]) ord) g.length).get k = _
      rw [h2, hnew, GoMap.get_foldl_set ord [] k hnd, GoMap.get_perm hord hnd k]
      cases GoMap.get maccPerms k <;> simp [GoMap.get]
    · show g.length ≠ maccPermsRef
      exact Nat.pos_iff_ne_zero.1 hlen
    · show MapStore.deref (List.foldl _ (g ++ [[]]) ord) maccPermsRef = _
      rw [h3 maccPermsRef (by
        show maccPermsRef ≠ g.length
        exact fun e => absurd (e ▸ hlen) (by simp [maccPermsRef])), hold, hg]
  obtain ⟨c1, c2, c3⟩ := call h order hh ho
  refine ⟨c1, ?_, c2, c3, ?_, ?_⟩
  · intro k
    have e := c1 k
    have n1 := GoMap.get_eq_none ((GetMaccPerms order h).2.deref (GetMaccPerms order h).1) k
    have n2 := GoMap.get_eq_none maccPerms k
    rw [e] at n1
    constructor
    · intro hk
      by_contra hc
      exact (n1.1 (n2.2 hc)) hk
    · intro hk
      by_contra hc
      exact (n2.1 (n1.2 hc)) hk
  · intro k v
    have hm : ((GetMaccPerms order h).2.assign (GetMaccPerms order h).1 k v).deref
        maccPermsRef = maccPerms := by
      rw [MapStore.deref_assign_of_ne _ _ _ _ _ c2, c3]
    exact ⟨hm, (call _ order' hm ho').1⟩
  · intro k
    have hm : ((GetMaccPerms order h).2.remove (GetMaccPerms order h).1 k).deref
        maccPermsRef = maccPerms := by
      rw [MapStore.deref_remove_of_ne _ _ _ _ c2, c3]
    exact ⟨hm, (call _ order' hm ho').1⟩

/-- Witness of C5: the store after package initialisation, the loop visiting the map
once in reverse order and once in the order of the literal. -/
theorem GetMaccPerms_copy_witness :
    initStore.deref maccPermsRef = maccPerms ∧
    maccPerms.reverse.Perm maccPerms ∧
    (∀ k, ((GetMaccPerms maccPerms.reverse initStore).2.deref
        (GetMaccPerms maccPerms.reverse initStore).1).get k = GoMap.get maccPerms k) ∧
    (GetMaccPerms maccPerms.reverse initStore).1 ≠ maccPermsRef :=
  have w := GetMaccPerms_copy initStore maccPerms.reverse maccPerms rfl
    (List.reverse_perm maccPerms) (List.Perm.refl maccPerms)
  ⟨rfl, List.reverse_perm maccPerms, w.1, w.2.2.1⟩

/-- The loop of `ModuleAccountAddrs`, started from any map: the keys it leaves. -/
theorem ModuleAccountAddrs_loop_keys (addr : GoString → String)
    (order : List (GoString × List GoString)) (m0 : GoMap String Bool) (s : String) :
    s ∈ (order.foldl (fun m kv => GoMap.set m (addr kv.1) true) m0).keys ↔
      (∃ acc ∈ GoMap.keys order, addr acc = s) ∨ s ∈ GoMap.keys m0 := by
  induction order generalizing m0 with
  | nil => simp [GoMap.keys]
  | cons e rest ih =>
    rw [List.foldl_cons, ih, GoMap.keys_set]
    have hk : GoMap.keys (e :: rest) = e.1 :: GoMap.keys rest := rfl
    rw [hk]
    constructor
    · rintro (⟨acc, hacc, rfl⟩ | rfl | hs)
      · exact Or.inl ⟨acc, List.mem_cons_of_mem _ hacc, rfl⟩
      · exact Or.inl ⟨e.1, List.mem_cons_self _ _, rfl⟩
      · exact Or.inr hs
    · rintro (⟨acc, hacc, rfl⟩ | hs)
      · rcases List.mem_cons.1 hacc with rfl | hacc
        · exact Or.inr (Or.inl rfl)
        · exact Or.inl ⟨acc, hacc, rfl⟩
      · exact Or.inr (Or.inr hs)

/-- The loop of `ModuleAccountAddrs` stores no value other than `true`. -/
theorem ModuleAccountAddrs_loop_values (addr : GoString → String)
    (order : List (GoString × List GoString)) (m0 : GoMap String Bool)
    (h0 : ∀ e ∈ m0, e.2 = true) :
    ∀ e ∈ order.foldl (fun m kv => GoMap.set m (addr kv.1) true) m0, e.2 = true := by
  induction order generalizing m0 with
  | nil => simpa using h0
  | cons e rest ih =>
    rw [List.foldl_cons]
    apply ih
    intro e' he'
    rcases GoMap.mem_set m0 _ _ e' he' with h | h
    · rw [h]
    · exact h0 e' h

/-- C6: `ModuleAccountAddrs` returns all the module account addresses. Whatever the
order in which the loop visits `maccPerms`, the keys of the returned map are exactly
the strings `authtypes.NewModuleAddress(name).String()` for the keys `name` of
`maccPerms`, among them the address of the x/auction module account whose permission
list is nil, and every value of the map is `true`. -/
theorem ModuleAccountAddrs_spec (addr : GoString → String)
    (order : List (GoString × List GoString)) (ho : order.Perm maccPerms) :
    (∀ s, s ∈ (ModuleAccountAddrs addr order).keys ↔
        ∃ acc ∈ GoMap.keys maccPerms, addr acc = s) ∧
    (∀ e ∈ ModuleAccountAddrs addr order, e.2 = true) ∧
    (∀ s, (ModuleAccountAddrs addr order).get s =
        if s ∈ (GoMap.keys maccPerms).map addr then some true else none) ∧
    GoMap.get maccPerms GoString.auctiontypes_ModuleName = some [] ∧
    (ModuleAccountAddrs addr order).get (addr GoString.auctiontypes_ModuleName) =
      some true := by
  have hkeys : ∀ s, s ∈ (ModuleAccountAddrs addr order).keys ↔
      ∃ acc ∈ GoMap.keys maccPerms, addr acc = s := by
    intro s
    have := ModuleAccountAddrs_loop_keys addr order [] s
    simp only [GoMap.keys, List.map_nil, List.not_mem_nil, or_false] at this
    rw [ModuleAccountAddrs, GoMap.keys, this]
    constructor
    · rintro ⟨acc, hacc, rfl⟩
      exact ⟨acc, ((ho.map Prod.fst).mem_iff).1 hacc, rfl⟩
    · rintro ⟨acc, hacc, rfl⟩
      exact ⟨acc, ((ho.map Prod.fst).mem_iff).2 hacc, rfl⟩
  have hvals : ∀ e ∈ ModuleAccountAddrs addr order, e.2 = true :=
    ModuleAccountAddrs_loop_values addr order [] (by simp)
  have hget : ∀ s, (ModuleAccountAddrs addr order).get s =
      if s ∈ (GoMap.keys maccPerms).map addr then some true else none := by
    intro s
    have hmem : s ∈ (GoMap.keys maccPerms).map addr ↔
        ∃ acc ∈ GoMap.keys maccPerms, addr acc = s := by
      simp [List.mem_map]
    by_cases hs : s ∈ (GoMap.keys maccPerms).map addr
    · rw [if_pos hs]
      have hin : s ∈ (ModuleAccountAddrs addr order).keys := (hkeys s).2 (hmem.1 hs)
      cases hg : (ModuleAccountAddrs addr order).get s with
      | none => exact absurd hin ((GoMap.get_eq_none _ s).1 hg)
      | some b =>
        have : (s, b) ∈ ModuleAccountAddrs addr order := by
          clear hin hvals hkeys
          generalize ModuleAccountAddrs addr order = m at hg
          induction m with
          | nil => simp [GoMap.get] at hg
          | cons e rest ih =>
            obtain ⟨k0, v0⟩ := e
            by_cases h0 : k0 = s
            · simp only [GoMap.get, h0, if_true, Option.some.injEq] at hg
              simp [h0, hg]
            · simp only [GoMap.get, h0, if_false] at hg
              exact List.mem_cons_of_mem _ (ih hg)
        have hb := hvals _ this
        simp only at hb
        rw [hb]
    · rw [if_neg hs]
      exact (GoMap.get_eq_none _ s).2 (fun hin => hs (hmem.2 ((hkeys s).1 hin)))
  refine ⟨hkeys, hvals, hget, by decide, ?_⟩
  rw [hget, if_pos]
  exact List.mem_map_of_mem addr (by decide)

/-- Witness of C6: the loop visiting `maccPerms` in reverse order. -/
theorem ModuleAccountAddrs_spec_witness :
    maccPerms.reverse.Perm maccPerms ∧
    (ModuleAccountAddrs (fun acc => reprStr acc) maccPerms.reverse).get
      (reprStr GoString.auctiontypes_ModuleName) = some true :=
  ⟨List.reverse_perm maccPerms,
    (ModuleAccountAddrs_spec (fun acc => reprStr acc) maccPerms.reverse
      (List.reverse_perm maccPerms)).2.2.2.2⟩

/-- C7: for every context and request, each of the three methods of
`UnimplementedQueryServer` returns a nil response and a non-nil error with the gRPC
code `Unimplemented` and the message "method <Name> not implemented" for its name. -/
theorem UnimplementedQueryServer_methods {Ctx ReqP RespP ReqA RespA ReqL RespL : Type}
    (ctx : Ctx) (reqP : ReqP) (reqA : ReqA) (reqL : ReqL) :
    (UnimplementedQueryServer.Params ctx reqP : Option RespP × Option StatusError) =
      (none, some { code := Code.Unimplemented,
                    message := "method Params not implemented" }) ∧
    (UnimplementedQueryServer.AnnualProvisions ctx reqA :
        Option RespA × Option StatusError) =
      (none, some { code := Code.Unimplemented,
                    message := "method AnnualProvisions not implemented" }) ∧
    (UnimplementedQueryServer.LastDilutionTimestamp ctx reqL :
        Option RespL × Option StatusError) =
      (none, some { code := Code.Unimplemented,
                    message := "method LastDilutionTimestamp not implemented" }) := by
  refine ⟨?_, ?_, ?_⟩ <;> rfl

/-! ### The laned mempool: invariant of the reachable states -/

theorem Lane.Insert_ok {l l' : Lane} {tx : Tx} {evicted : Option Tx}
    (h : l.Insert tx = Except.ok (l', evicted)) :
    ∃ S, S.Sublist l.txs ∧ l' = l.withTxs (S ++ [tx]) := by
  unfold Lane.Insert at h
  split at h
  · split at h
    · split at h
      · simp only [Except.ok.injEq, Prod.mk.injEq] at h
        exact ⟨_, List.filter_sublist _, h.1.symm⟩
      · simp at h
    · simp at h
  · simp only [Except.ok.injEq, Prod.mk.injEq] at h
    exact ⟨l.txs, List.Sublist.refl _, h.1.symm⟩

theorem nodup_hash_insert (X A Y S : List Tx) (tx : Tx) (hS : S.Sublist A)
    (hnd : ((X ++ A ++ Y).map (fun t => t.hash)).Nodup)
    (hnew : tx.hash ∉ (X ++ A ++ Y).map (fun t => t.hash)) :
    ((X ++ (S ++ [tx]) ++ Y).map (fun t => t.hash)).Nodup := by
  have hsub : (X ++ S ++ Y).Sublist (X ++ A ++ Y) :=
    ((List.Sublist.refl X).append hS).append (List.Sublist.refl Y)
  have hperm : (X ++ (S ++ [tx]) ++ Y).Perm (tx :: (X ++ S ++ Y)) := by
    have : X ++ (S ++ [tx]) ++ Y = (X ++ S) ++ tx :: Y := by simp
    rw [this]
    exact List.perm_middle
  rw [(hperm.map _).nodup_iff, List.map_cons, List.nodup_cons]
  refine ⟨fun hmem => hnew ?_, hnd.sublist (hsub.map _)⟩
  exact (hsub.map _).subset hmem

theorem mempoolWith_allTxs (sv : Services) (A B C : List Tx) :
    (NewInitiaApp.mempoolWith sv A B C).allTxs = A ++ B ++ C := by
  simp [NewInitiaApp.mempoolWith, LanedMempool.allTxs, Lane.withTxs]

theorem mempoolWith_not_contains (sv : Services) (A B C : List Tx) (hash : Nat)
    (h : ¬ (NewInitiaApp.mempoolWith sv A B C).Contains hash = true) :
    hash ∉ (A ++ B ++ C).map (fun t => t.hash) := by
  intro hmem
  apply h
  rw [LanedMempool.Contains, mempoolWith_allTxs, List.any_eq_true]
  obtain ⟨t, ht, rfl⟩ := List.mem_map.1 hmem
  exact ⟨t, ht, by simp⟩

/-- A successful `Insert` keeps the invariant. -/
theorem WellFormed.insert {sv : Services} {m m' : LanedMempool} {tx : Tx}
    {evicted : Option Tx} (hw : WellFormed sv m)
    (h : m.Insert tx = Except.ok (m', evicted)) : WellFormed sv m' := by
  obtain ⟨A, B, C, rfl, hA, hB, hC, hnd⟩ := hw
  unfold LanedMempool.Insert at h
  split at h
  · simp at h
  · rename_i hcont
    have hnew := mempoolWith_not_contains sv A B C tx.hash hcont
    by_cases hbid : isBid tx = true
    · -- the MEV lane takes it
      cases hins : (NewInitiaApp.mevLane.withTxs A).Insert tx with
      | error e =>
        simp [NewInitiaApp.mempoolWith, insertFirstMatch, Lane.withTxs, NewInitiaApp.mevLane,
          NewMEVLane, hbid] at h hins
        simp [hins] at h
      | ok r =>
        obtain ⟨l', ev⟩ := r
        obtain ⟨S, hS, hl'⟩ := Lane.Insert_ok hins
        simp [NewInitiaApp.mempoolWith, insertFirstMatch, Lane.withTxs, NewInitiaApp.mevLane,
          NewMEVLane, hbid] at h hins
        simp [hins] at h
        refine ⟨S ++ [tx], B, C, ?_, ?_, hB, hC, ?_⟩
        · rw [← h.1, hl']
          simp [NewInitiaApp.mempoolWith, Lane.withTxs, NewInitiaApp.mevLane, NewMEVLane]
        · intro t ht
          rcases List.mem_append.1 ht with ht | ht
          · exact hA t (hS.subset ht)
          · simp at ht; rw [ht]; exact hbid
        · have := nodup_hash_insert [] A (B ++ C) S tx hS (by simpa using hnd)
            (by simpa using hnew)
          simpa using this
    · have hbid' : isBid tx = false := by simpa using hbid
      by_cases hfree : sv.FreeLaneMatchHandler tx = true
      · -- the free lane takes it
        cases hins : ((NewInitiaApp.freeLane sv).withTxs B).Insert tx with
        | error e =>
          simp [NewInitiaApp.mempoolWith, insertFirstMatch, Lane.withTxs, NewInitiaApp.mevLane,
            NewMEVLane, NewInitiaApp.freeLane, NewFreeLane, hbid', hfree] at h hins
          simp [hins] at h
        | ok r =>
          obtain ⟨l', ev⟩ := r
          obtain ⟨S, hS, hl'⟩ := Lane.Insert_ok hins
          simp [NewInitiaApp.mempoolWith, insertFirstMatch, Lane.withTxs, NewInitiaApp.mevLane,
            NewMEVLane, NewInitiaApp.freeLane, NewFreeLane, hbid', hfree] at h hins
          simp [hins] at h
          refine ⟨A, S ++ [tx], C, ?_, hA, ?_, hC, ?_⟩
          · rw [← h.1, hl']
            simp [NewInitiaApp.mempoolWith, Lane.withTxs, NewInitiaApp.mevLane, NewMEVLane,
              NewInitiaApp.freeLane, NewFreeLane]
          · intro t ht
            rcases List.mem_append.1 ht with ht | ht
            · exact hB t (hS.subset ht)
            · simp at ht; rw [ht]; exact ⟨hbid', hfree⟩
          · exact nodup_hash_insert A B C S tx hS hnd hnew
      · have hfree' : sv.FreeLaneMatchHandler tx = false := by simpa using hfree
        -- the default lane takes it
        cases hins : (NewInitiaApp.defaultLane.withTxs C).Insert tx with
        | error e =>
          simp [NewInitiaApp.mempoolWith, insertFirstMatch, Lane.withTxs, NewInitiaApp.mevLane,
            NewMEVLane, NewInitiaApp.freeLane, NewFreeLane, NewInitiaApp.defaultLane,
            NewDefaultLane, hbid', hfree'] at h hins
          simp [hins] at h
        | ok r =>
          obtain ⟨l', ev⟩ := r
          obtain ⟨S, hS, hl'⟩ := Lane.Insert_ok hins
          simp [NewInitiaApp.mempoolWith, insertFirstMatch, Lane.withTxs, NewInitiaApp.mevLane,
            NewMEVLane, NewInitiaApp.freeLane, NewFreeLane, NewInitiaApp.defaultLane,
            NewDefaultLane, hbid', hfree'] at h hins
          simp [hins] at h
          refine ⟨A, B, S ++ [tx], ?_, hA, hB, ?_, ?_⟩
          · rw [← h.1, hl']
            simp [NewInitiaApp.mempoolWith, Lane.withTxs, NewInitiaApp.mevLane, NewMEVLane,
              NewInitiaApp.freeLane, NewFreeLane, NewInitiaApp.defaultLane, NewDefaultLane]
          · intro t ht
            rcases List.mem_append.1 ht with ht | ht
            · exact hC t (hS.subset ht)
            · simp at ht; rw [ht]; exact ⟨hbid', hfree'⟩
          · have := nodup_hash_insert (A ++ B) C [] S tx hS (by simpa using hnd)
              (by simpa using hnew)
            simpa using this

/-- Every `Remove` keeps the invariant. -/
theorem WellFormed.remove {sv : Services} {m : LanedMempool} (hashes : List Nat)
    (hw : WellFormed sv m) : WellFormed sv (m.Remove hashes) := by
  obtain ⟨A, B, C, rfl, hA, hB, hC, hnd⟩ := hw
  refine ⟨A.filter (fun t => decide (t.hash ∉ hashes)),
    B.filter (fun t => decide (t.hash ∉ hashes)),
    C.filter (fun t => decide (t.hash ∉ hashes)), ?_, ?_, ?_, ?_, ?_⟩
  · simp [NewInitiaApp.mempoolWith, LanedMempool.Remove, Lane.Remove, Lane.withTxs]
  · intro t ht; exact hA t (List.mem_of_mem_filter ht)
  · intro t ht; exact hB t (List.mem_of_mem_filter ht)
  · intro t ht; exact hC t (List.mem_of_mem_filter ht)
  · refine hnd.sublist (List.Sublist.map _ ?_)
    exact ((List.filter_sublist _).append (List.filter_sublist _)).append
      (List.filter_sublist _)

/-- Every reachable state of the mempool of the application satisfies the invariant. -/
theorem Reachable.wellFormed {sv : Services} {m : LanedMempool} (hr : Reachable sv m) :
    WellFormed sv m := by
  induction hr with
  | init =>
    refine ⟨[], [], [], ?_, ?_, ?_, ?_, ?_⟩
    · simp [NewInitiaApp.mempool, NewLanedMempool, NewInitiaApp.lanes,
        NewInitiaApp.mempoolWith, Lane.withTxs, NewInitiaApp.mevLane, NewMEVLane,
        NewInitiaApp.freeLane, NewFreeLane, NewInitiaApp.defaultLane, NewDefaultLane]
    · simp
    · simp
    · simp
    · simp
  | insert _ hins ih => exact ih.insert hins
  | remove hashes _ ih => exact ih.remove hashes

/-! ### The comparators of the lanes -/

theorem bidOutranks_lawful : LawfulPriority bidOutranks := by
  refine ⟨?_, ?_, ?_⟩
  · intro a b h
    simp only [bidOutranks, decide_eq_true_eq, decide_eq_false_iff_not] at h ⊢
    omega
  · intro a b c h1 h2
    simp only [bidOutranks, decide_eq_false_iff_not] at h1 h2 ⊢
    omega
  · intro a b h
    simp only [bidOutranks, decide_eq_true_eq]
    omega

theorem feeDen_pos (t : Tx) : 0 < feeDen t := by
  unfold feeDen
  split <;> omega

/-- The comparator of the default lane, in terms of the fractions it compares. -/
theorem feeOutranks_iff (a b : Tx) :
    feeOutranks a b = true ↔
      ((feeNum b : ℚ) / feeDen b < (feeNum a : ℚ) / feeDen a ∨
        ((feeNum a : ℚ) / feeDen a = (feeNum b : ℚ) / feeDen b ∧ a.hash < b.hash)) := by
  have ha : (0 : ℚ) < feeDen a := by exact_mod_cast feeDen_pos a
  have hb : (0 : ℚ) < feeDen b := by exact_mod_cast feeDen_pos b
  rw [div_lt_div_iff₀ hb ha, div_eq_div_iff (ne_of_gt ha) (ne_of_gt hb)]
  simp only [feeOutranks, decide_eq_true_eq]
  constructor
  · rintro (h | ⟨h1, h2⟩)
    · left; exact_mod_cast h
    · right; exact ⟨by exact_mod_cast h1, h2⟩
  · rintro (h | ⟨h1, h2⟩)
    · left; exact_mod_cast h
    · right; exact ⟨by exact_mod_cast h1, h2⟩

theorem feeOutranks_lawful : LawfulPriority feeOutranks := by
  have hf : ∀ a b, feeOutranks a b = false ↔
      ¬ ((feeNum b : ℚ) / feeDen b < (feeNum a : ℚ) / feeDen a ∨
        ((feeNum a : ℚ) / feeDen a = (feeNum b : ℚ) / feeDen b ∧ a.hash < b.hash)) := by
    intro a b
    rw [← feeOutranks_iff]
    simp
  refine ⟨?_, ?_, ?_⟩
  · intro a b h
    rw [hf]
    rw [feeOutranks_iff] at h
    rintro (h' | ⟨h1, h2⟩)
    · rcases h with h | ⟨h3, _⟩
      · exact lt_asymm h h'
      · rw [h3] at h'; exact lt_irrefl _ h'
    · rcases h with h | ⟨_, h4⟩
      · rw [h1] at h; exact lt_irrefl _ h
      · omega
  · intro a b c h1 h2
    rw [hf] at h1 h2 ⊢
    simp only [not_or, not_lt, not_and] at h1 h2 ⊢
    refine ⟨le_trans h2.1 h1.1, fun he => ?_⟩
    have e1 : (feeNum c : ℚ) / feeDen c = (feeNum b : ℚ) / feeDen b :=
      le_antisymm h2.1 (by rw [he]; exact h1.1)
    have e2 : (feeNum b : ℚ) / feeDen b = (feeNum a : ℚ) / feeDen a :=
      le_antisymm h1.1 (by rw [← he]; exact h2.1)
    have := h1.2 e2
    have := h2.2 e1
    omega
  · intro a b h
    rw [feeOutranks_iff, feeOutranks_iff]
    rcases lt_trichotomy ((feeNum a : ℚ) / feeDen a) ((feeNum b : ℚ) / feeDen b) with
      hlt | heq | hgt
    · exact Or.inr (Or.inl hlt)
    · rcases Nat.lt_or_gt_of_ne h with hh | hh
      · exact Or.inl (Or.inr ⟨heq, hh⟩)
      · exact Or.inr (Or.inr ⟨heq.symm, hh⟩)
    · exact Or.inl (Or.inl hgt)

/-- The output of `Lane.Select` of a lane with a lawful comparator is in descending
priority order: no transaction is outranked by a later one. -/
theorem Lane.Select_sorted (l : Lane) (hl : LawfulPriority l.outranks) :
    List.Pairwise (fun a b => l.outranks b a = false) l.Select := by
  haveI : IsTotal Tx (fun a b => l.outranks b a = false) :=
    ⟨fun a b => by
      cases h : l.outranks b a with
      | false => exact Or.inl rfl
      | true => exact Or.inr (hl.asymm b a h)⟩
  haveI : IsTrans Tx (fun a b => l.outranks b a = false) :=
    ⟨fun a b c h1 h2 => hl.negTrans a b c h1 h2⟩
  exact List.sorted_insertionSort (fun a b => l.outranks b a = false) l.txs

theorem Lane.Select_perm (l : Lane) : l.Select.Perm l.txs :=
  List.perm_insertionSort _ _

theorem Lane.mem_Select (l : Lane) (t : Tx) : t ∈ l.Select ↔ t ∈ l.txs :=
  (Lane.Select_perm l).mem_iff

/-! ### The order check on a built block -/

theorem verifyOrder_bundle (lanes : List Lane) (cur : Nat) (prev : Option Tx)
    (bs rest : List Tx) :
    verifyOrder lanes cur prev (bs.map (fun b => b.hash)) (bs ++ rest) =
      verifyOrder lanes cur prev [] rest := by
  induction bs with
  | nil => rfl
  | cons b bs ih => simp [verifyOrder, ih]

theorem verifyOrder_of_goodFrom {lanes : List Lane} {cur : Nat} {prev : Option Tx}
    {U : List (List Tx)} (h : GoodFrom lanes cur prev U) :
    verifyOrder lanes cur prev [] U.flatten = true := by
  induction h with
  | nil cur prev => simp [verifyOrder]
  | @cons cur prev t bs j lane U hfm hle hprev hbs _ ih =>
    have hflat : ((t :: bs) :: U).flatten = t :: (bs ++ U.flatten) := by simp
    rw [hflat]
    unfold verifyOrder
    simp only [hfm]
    rw [← hbs, verifyOrder_bundle, ih]
    cases prev with
    | none => simp [hle]
    | some p =>
      by_cases hj : j = cur
      · simp [hle, hj, hprev hj p rfl]
      · simp [hle, hj]

theorem takeUnits_goodFrom {lanes : List Lane} {cur : Nat} {prev : Option Tx}
    {U : List (List Tx)} (h : GoodFrom lanes cur prev U) (bytes gas : Nat) :
    GoodFrom lanes cur prev (takeUnits bytes gas U) := by
  induction h generalizing bytes gas with
  | nil cur prev => exact GoodFrom.nil cur prev
  | @cons cur prev t bs j lane U hfm hle hprev hbs _ ih =>
    unfold takeUnits
    split
    · exact GoodFrom.cons hfm hle hprev hbs (ih _ _)
    · exact GoodFrom.nil cur prev

theorem totalBytes_append (xs ys : List Tx) :
    totalBytes (xs ++ ys) = totalBytes xs + totalBytes ys := by
  simp [totalBytes]

theorem totalGas_append (xs ys : List Tx) :
    totalGas (xs ++ ys) = totalGas xs + totalGas ys := by
  simp [totalGas]

/-- The units taken under a budget stay within both components of the budget. -/
theorem takeUnits_within (bytes gas : Nat) (U : List (List Tx)) :
    totalBytes (takeUnits bytes gas U).flatten ≤ bytes ∧
    totalGas (takeUnits bytes gas U).flatten ≤ gas := by
  induction U generalizing bytes gas with
  | nil => simp [takeUnits, totalBytes, totalGas]
  | cons u rest ih =>
    unfold takeUnits
    split
    · rename_i hfit
      obtain ⟨h1, h2⟩ := ih (bytes - totalBytes u) (gas - totalGas u)
      rw [List.flatten_cons, totalBytes_append, totalGas_append]
      omega
    · simp [totalBytes, totalGas]

/-- The units taken under a budget are the first units of the sequence. -/
theorem takeUnits_initial (bytes gas : Nat) (U : List (List Tx)) :
    takeUnits bytes gas U <+: U := by
  induction U generalizing bytes gas with
  | nil => simp [takeUnits]
  | cons u rest ih =>
    unfold takeUnits
    split
    · exact (List.prefix_cons_inj u).2 (ih _ _)
    · exact List.nil_prefix

/-- A budget that covers the whole sequence takes all of it. -/
theorem takeUnits_all (bytes gas : Nat) (U : List (List Tx))
    (hb : totalBytes U.flatten ≤ bytes) (hg : totalGas U.flatten ≤ gas) :
    takeUnits bytes gas U = U := by
  induction U generalizing bytes gas with
  | nil => simp [takeUnits]
  | cons u rest ih =>
    rw [List.flatten_cons, totalBytes_append] at hb
    rw [List.flatten_cons, totalGas_append] at hg
    unfold takeUnits
    rw [if_pos ⟨by omega, by omega⟩, ih _ _ (by omega) (by omega)]

theorem LanedMempool.resolveAll_some (m : LanedMempool) (hashes : List Nat)
    (bs : List Tx) (h : m.resolveAll hashes = some bs) :
    bs.map (fun b => b.hash) = hashes ∧ ∀ b ∈ bs, b ∈ m.allTxs := by
  induction hashes generalizing bs with
  | nil =>
    simp only [LanedMempool.resolveAll, Option.some.injEq] at h
    subst h
    simp
  | cons hash rest ih =>
    unfold LanedMempool.resolveAll at h
    split at h
    · rename_i t ts hres hrest
      simp only [Option.some.injEq] at h
      subst h
      obtain ⟨h1, h2⟩ := ih ts hrest
      have hmem : t ∈ m.allTxs := List.mem_of_find?_eq_some hres
      have hhash : t.hash = hash := by
        have := List.find?_some hres
        simpa using this
      refine ⟨by simp [h1, hhash], ?_⟩
      intro b hb
      rcases List.mem_cons.1 hb with rfl | hb
      · exact hmem
      · exact h2 b hb
    · simp at h

theorem LanedMempool.unit_some (m : LanedMempool) (l : Lane) (t : Tx) (u : List Tx)
    (h : m.unit l t = some u) :
    ∃ bs, u = t :: bs ∧ bs.map (fun b => b.hash) = l.bundleOf t ∧ ∀ b ∈ bs, b ∈ m.allTxs := by
  unfold LanedMempool.unit at h
  cases hres : m.resolveAll (l.bundleOf t) with
  | none => simp [hres] at h
  | some bs =>
    simp only [hres, Option.map_some', Option.some.injEq] at h
    obtain ⟨h1, h2⟩ := m.resolveAll_some _ bs hres
    exact ⟨bs, h.symm, h1, h2⟩

/-- The units of one lane pass the order check, whatever comes before them in a lane
not after this one, if what follows them passes it. -/
theorem goodFrom_lane (lanes : List Lane) (m : LanedMempool) (i : Nat) (l : Lane)
    (L : List Tx) (Tail : List (List Tx))
    (hfm : ∀ t ∈ L, firstMatch lanes t = some (i, l))
    (hs : L.Pairwise (fun a b => l.outranks b a = false))
    (htail : ∀ c p, c ≤ i → GoodFrom lanes c p Tail) :
    ∀ c p, c ≤ i → (c = i → ∀ p', p = some p' → ∀ t ∈ L, l.outranks t p' = false) →
      GoodFrom lanes c p (L.filterMap (m.unit l) ++ Tail) := by
  induction L with
  | nil =>
    intro c p hc _
    simpa using htail c p hc
  | cons t L' ih =>
    intro c p hc hcond
    rw [List.pairwise_cons] at hs
    have ih' := ih (fun t' ht' => hfm t' (List.mem_cons_of_mem _ ht')) hs.2
    cases hu : m.unit l t with
    | none =>
      rw [List.filterMap_cons_none hu]
      exact ih' c p hc (fun hci p' hp t' ht' => hcond hci p' hp t' (List.mem_cons_of_mem _ ht'))
    | some u =>
      rw [List.filterMap_cons_some hu]
      obtain ⟨bs, rfl, hbs, -⟩ := m.unit_some l t u hu
      rw [List.cons_append]
      refine GoodFrom.cons (hfm t (List.mem_cons_self _ _)) hc ?_ hbs ?_
      · intro hic p' hp
        exact hcond hic.symm p' hp t (List.mem_cons_self _ _)
      · apply ih' i (some t) (le_refl i)
        intro _ p' hp t' ht'
        simp only [Option.some.injEq] at hp
        subst hp
        exact hs.1 t' ht'

theorem firstMatch_mempoolWith (sv : Services) (A B C : List Tx) (t : Tx) :
    firstMatch (NewInitiaApp.mempoolWith sv A B C).registry t =
      if isBid t = true then some (0, NewInitiaApp.mevLane.withTxs A)
      else if sv.FreeLaneMatchHandler t = true then
        some (1, (NewInitiaApp.freeLane sv).withTxs B)
      else some (2, NewInitiaApp.defaultLane.withTxs C) := by
  by_cases h1 : isBid t = true
  · simp [NewInitiaApp.mempoolWith, firstMatch, Lane.withTxs, NewInitiaApp.mevLane,
      NewMEVLane, h1]
  · by_cases h2 : sv.FreeLaneMatchHandler t = true
    · simp [NewInitiaApp.mempoolWith, firstMatch, Lane.withTxs, NewInitiaApp.mevLane,
        NewMEVLane, NewInitiaApp.freeLane, NewFreeLane, h1, h2]
    · simp [NewInitiaApp.mempoolWith, firstMatch, Lane.withTxs, NewInitiaApp.mevLane,
        NewMEVLane, NewInitiaApp.freeLane, NewFreeLane, NewInitiaApp.defaultLane,
        NewDefaultLane, h1, h2]

/-- In a state that satisfies the invariant, the units of the three lanes, one lane
after the other, pass the order check from the start of a block. -/
theorem WellFormed.goodFrom {sv : Services} {m : LanedMempool} (hw : WellFormed sv m)
    (hP : LawfulPriority sv.DefaultTxPriority) :
    GoodFrom m.registry 0 none (m.registry.flatMap m.laneUnits) := by
  obtain ⟨A, B, C, rfl, hA, hB, hC, -⟩ := hw
  have hflat : (NewInitiaApp.mempoolWith sv A B C).registry.flatMap
      (NewInitiaApp.mempoolWith sv A B C).laneUnits =
      (NewInitiaApp.mevLane.withTxs A).Select.filterMap
          ((NewInitiaApp.mempoolWith sv A B C).unit (NewInitiaApp.mevLane.withTxs A)) ++
        (((NewInitiaApp.freeLane sv).withTxs B).Select.filterMap
          ((NewInitiaApp.mempoolWith sv A B C).unit ((NewInitiaApp.freeLane sv).withTxs B)) ++
        ((NewInitiaApp.defaultLane.withTxs C).Select.filterMap
          ((NewInitiaApp.mempoolWith sv A B C).unit (NewInitiaApp.defaultLane.withTxs C)) ++
          [])) := by
    simp [NewInitiaApp.mempoolWith, LanedMempool.laneUnits]
  rw [hflat]
  have lawA : LawfulPriority (NewInitiaApp.mevLane.withTxs A).outranks := bidOutranks_lawful
  have lawB : LawfulPriority ((NewInitiaApp.freeLane sv).withTxs B).outranks := hP
  have lawC : LawfulPriority (NewInitiaApp.defaultLane.withTxs C).outranks :=
    feeOutranks_lawful
  have fmA : ∀ t ∈ (NewInitiaApp.mevLane.withTxs A).Select,
      firstMatch (NewInitiaApp.mempoolWith sv A B C).registry t =
        some (0, NewInitiaApp.mevLane.withTxs A) := by
    intro t ht
    have : t ∈ A := (Lane.mem_Select _ t).1 ht
    rw [firstMatch_mempoolWith, if_pos (hA t this)]
  have fmB : ∀ t ∈ ((NewInitiaApp.freeLane sv).withTxs B).Select,
      firstMatch (NewInitiaApp.mempoolWith sv A B C).registry t =
        some (1, (NewInitiaApp.freeLane sv).withTxs B) := by
    intro t ht
    have : t ∈ B := (Lane.mem_Select _ t).1 ht
    rw [firstMatch_mempoolWith, if_neg (by simp [(hB t this).1]), if_pos (hB t this).2]
  have fmC : ∀ t ∈ (NewInitiaApp.defaultLane.withTxs C).Select,
      firstMatch (NewInitiaApp.mempoolWith sv A B C).registry t =
        some (2, NewInitiaApp.defaultLane.withTxs C) := by
    intro t ht
    have : t ∈ C := (Lane.mem_Select _ t).1 ht
    rw [firstMatch_mempoolWith, if_neg (by simp [(hC t this).1]),
      if_neg (by simp [(hC t this).2])]
  have gC := goodFrom_lane _ (NewInitiaApp.mempoolWith sv A B C) 2 _ _ [] fmC
    (Lane.Select_sorted _ lawC) (fun c p _ => GoodFrom.nil c p)
  have gB := goodFrom_lane _ (NewInitiaApp.mempoolWith sv A B C) 1 _ _ _ fmB
    (Lane.Select_sorted _ lawB)
    (fun c p hc => gC c p (by omega) (fun h => by omega))
  have gA := goodFrom_lane _ (NewInitiaApp.mempoolWith sv A B C) 0 _ _ _ fmA
    (Lane.Select_sorted _ lawA)
    (fun c p hc => gB c p (by omega) (fun h => by omega))
  exact gA 0 none (le_refl 0) (fun _ p' hp => by simp at hp)

theorem decodeAll_map_raw (decode : List Byte → Option Tx) (txs : List Tx)
    (h : ∀ t ∈ txs, decode t.raw = some t) :
    decodeAll decode (txs.map (fun t => t.raw)) = some txs := by
  induction txs with
  | nil => rfl
  | cons t rest ih =>
    have h1 := h t (List.mem_cons_self _ _)
    have h2 := ih (fun t' ht' => h t' (List.mem_cons_of_mem _ ht'))
    simp [decodeAll, h1, h2]

/-- Every selected transaction is held by the mempool. -/
theorem LanedMempool.Select_subset (m : LanedMempool) (budget : Budget) (t : Tx)
    (h : t ∈ m.Select budget) : t ∈ m.allTxs := by
  unfold LanedMempool.Select at h
  obtain ⟨u, hu, htu⟩ := List.mem_flatten.1 h
  have hu' : u ∈ m.registry.flatMap m.laneUnits :=
    (takeUnits_initial _ _ _).subset hu
  obtain ⟨l, hl, hul⟩ := List.mem_flatMap.1 hu'
  unfold LanedMempool.laneUnits at hul
  obtain ⟨t0, ht0, hunit⟩ := List.mem_filterMap.1 hul
  obtain ⟨bs, rfl, -, hbs⟩ := m.unit_some l t0 u hunit
  rcases List.mem_cons.1 htu with rfl | hb
  · exact List.mem_flatMap.2 ⟨l, hl, (Lane.mem_Select l _).1 ht0⟩
  · exact hbs t hb

/-- C8: a node accepts its own honestly built block. For every reachable state of the
mempool of the application, every height and every budget, `ProcessProposal` accepts
the block that `PrepareProposal` builds from that state under the same budget, both
handlers working over the same laned mempool. The comparator handed to the free lane
is a lawful priority, and the decoder gives back every transaction of the mempool from
its raw bytes. -/
theorem ProcessProposal_accepts_PrepareProposal (sv : Services)
    (hP : LawfulPriority sv.DefaultTxPriority) (m : LanedMempool) (hm : Reachable sv m)
    (hdec : ∀ t ∈ m.allTxs, sv.TxDecoder t.raw = some t) (height : Nat)
    (budget : Budget) :
    ProcessProposal sv.TxDecoder m height budget (PrepareProposal m height budget) =
      Verdict.accept := by
  have hw := hm.wellFormed
  have hgood := takeUnits_goodFrom (hw.goodFrom hP) budget.byteBudget budget.gasBudget
  have horder : verifyOrder m.registry 0 none [] (m.Select budget) = true :=
    verifyOrder_of_goodFrom hgood
  have hwithin := takeUnits_within budget.byteBudget budget.gasBudget
    (m.registry.flatMap m.laneUnits)
  have hdecode : decodeAll sv.TxDecoder ((m.Select budget).map (fun t => t.raw)) =
      some (m.Select budget) :=
    decodeAll_map_raw _ _ (fun t ht => hdec t (m.Select_subset budget t ht))
  have hbytes : (((m.Select budget).map (fun t => t.raw)).map List.length).sum =
      totalBytes (m.Select budget) := by
    simp [totalBytes, List.map_map, Function.comp_def]
  unfold ProcessProposal PrepareProposal
  rw [hdecode]
  simp only [hbytes]
  rw [if_pos ⟨hwithin.1, hwithin.2, horder⟩]

/-! ### The example mempool -/

theorem Example.scenarioA_reachable : Reachable Example.services Example.scenarioA := by
  have h0 : Reachable Example.services (NewInitiaApp.mempoolWith Example.services [] [] []) :=
    Reachable.init
  have h1 : Reachable Example.services
      (NewInitiaApp.mempoolWith Example.services [] [] [Example.fee1]) :=
    @Reachable.insert _ _ _ Example.fee1 none h0 rfl
  have h2 : Reachable Example.services
      (NewInitiaApp.mempoolWith Example.services [] [Example.freeTx] [Example.fee1]) :=
    @Reachable.insert _ _ _ Example.freeTx none h1 rfl
  have h3 : Reachable Example.services
      (NewInitiaApp.mempoolWith Example.services [] [Example.freeTx]
        [Example.fee1, Example.fee5]) :=
    @Reachable.insert _ _ _ Example.fee5 none h2 rfl
  exact @Reachable.insert _ _ _ Example.fee3 none h3 rfl

theorem Example.withBid_reachable : Reachable Example.services Example.withBid :=
  @Reachable.insert _ _ _ Example.bidTx none Example.scenarioA_reachable rfl

/-- Witness of C8: the example mempool with the bid, under a budget of four bytes, which
leaves room for the bid, its bundle and the exempt transaction only. -/
theorem ProcessProposal_accepts_PrepareProposal_witness :
    LawfulPriority Example.services.DefaultTxPriority ∧
    Reachable Example.services Example.withBid ∧
    (∀ t ∈ Example.withBid.allTxs, Example.services.TxDecoder t.raw = some t) ∧
    PrepareProposal Example.withBid 7 { byteBudget := 4, gasBudget := 1000 } =
      [[9], [3], [2], [1]] ∧
    ProcessProposal Example.services.TxDecoder Example.withBid 7
      { byteBudget := 4, gasBudget := 1000 }
      (PrepareProposal Example.withBid 7 { byteBudget := 4, gasBudget := 1000 }) =
      Verdict.accept :=
  ⟨feeOutranks_lawful, Example.withBid_reachable, by decide, by decide,
    ProcessProposal_accepts_PrepareProposal Example.services feeOutranks_lawful
      Example.withBid Example.withBid_reachable (by decide) 7
      { byteBudget := 4, gasBudget := 1000 }⟩

/-- The order check is not void: on the example mempool a block that puts a default-lane
transaction before a free-lane transaction, and a block that cuts the bundle of the
bid short, are rejected. -/
theorem Example.ProcessProposal_rejects :
    ProcessProposal Example.services.TxDecoder Example.withBid 7
      { byteBudget := 1000, gasBudget := 1000 } [[5], [1]] =
      Verdict.reject ProposalError.OrderingViolation ∧
    ProcessProposal Example.services.TxDecoder Example.withBid 7
      { byteBudget := 1000, gasBudget := 1000 } [[9], [3], [1]] =
      Verdict.reject ProposalError.OrderingViolation := by
  decide

/-! ### Claims about the laned mempool -/

/-- C1: the laned mempool that `NewInitiaApp` constructs and installs holds exactly three
lanes, in the fixed priority order MEV lane first, free lane second, default lane
third. -/
theorem NewInitiaApp_mempool_lanes (sv : Services) :
    (NewInitiaApp.mempool sv).registry =
      [NewInitiaApp.mevLane, NewInitiaApp.freeLane sv, NewInitiaApp.defaultLane] ∧
    (NewInitiaApp.mempool sv).registry.length = 3 ∧
    (NewInitiaApp.mempool sv).registry.map (fun l => l.name) =
      [LaneName.mev, LaneName.free, LaneName.default] := by
  refine ⟨rfl, rfl, rfl⟩

theorem flatten_initial {α : Type} {L₁ L₂ : List (List α)} (h : L₁ <+: L₂) :
    L₁.flatten <+: L₂.flatten := by
  obtain ⟨R, rfl⟩ := h
  rw [List.flatten_append]
  exact List.prefix_append _ _

/-- Two arrangements of the same transactions, one in which no transaction is outranked
by a later one and one in which every transaction outranks all later ones, are the
same sequence. -/
theorem sorted_perm_unique {P : Tx → Tx → Bool} :
    ∀ (T S : List Tx), S.Perm T → S.Pairwise (fun a b => P b a = false) →
      T.Pairwise (fun a b => P a b = true) → S = T := by
  intro T
  induction T with
  | nil =>
    intro S hp _ _
    exact hp.eq_nil
  | cons t0 T' ih =>
    intro S hp hS hT
    cases S with
    | nil => exact absurd hp.symm.eq_nil (by simp)
    | cons s0 S' =>
      rw [List.pairwise_cons] at hS hT
      have hst : s0 = t0 := by
        by_contra hne
        have h1 : s0 ∈ T' := by
          have : s0 ∈ t0 :: T' := hp.subset (List.mem_cons_self _ _)
          rcases List.mem_cons.1 this with h | h
          · exact absurd h hne
          · exact h
        have h2 : t0 ∈ S' := by
          have : t0 ∈ s0 :: S' := hp.symm.subset (List.mem_cons_self _ _)
          rcases List.mem_cons.1 this with h | h
          · exact absurd h.symm hne
          · exact h
        have e1 := hT.1 s0 h1
        have e2 := hS.1 t0 h2
        rw [e1] at e2
        exact Bool.noConfusion e2
      subst hst
      rw [ih S' hp.cons_inv hS.2 hT.2]

/-- Outside the MEV lane a transaction is a unit of its own. -/
theorem LanedMempool.unit_of_not_mev (m : LanedMempool) (l : Lane) (t : Tx)
    (hl : l.name ≠ LaneName.mev) : m.unit l t = some [t] := by
  simp [LanedMempool.unit, Lane.bundleOf, hl, LanedMempool.resolveAll]

theorem LanedMempool.laneUnits_of_not_mev (m : LanedMempool) (l : Lane)
    (hl : l.name ≠ LaneName.mev) : m.laneUnits l = l.Select.map (fun t => [t]) := by
  unfold LanedMempool.laneUnits
  generalize l.Select = L
  induction L with
  | nil => rfl
  | cons t L' ih =>
    rw [List.filterMap_cons_some (m.unit_of_not_mev l t hl), ih, List.map_cons]

theorem flatten_map_singleton {α : Type} (L : List α) :
    (L.map (fun t => [t])).flatten = L := by
  induction L with
  | nil => rfl
  | cons a L' ih => simp [ih]

/-- C9: for every reachable state of the mempool of the application, the registry is the
MEV lane, the free lane and the default lane in this order, and the sequence `Select`
returns is the concatenation of the selection of the MEV lane, then of the free lane,
then of the default lane: under a budget that covers the three selections it is the
whole concatenation, under a smaller budget the part of it that was reached. In
particular, with an empty MEV lane, one transaction in the free lane and three
default-lane transactions paying 5, 3 and 1 per gas unit, held in any order, `Select`
returns the free transaction, then the fee-5, the fee-3 and the fee-1 transaction. -/
theorem Select_is_concatenation (sv : Services) (m : LanedMempool) (budget : Budget)
    (hm : Reachable sv m) :
    (∃ mev free dflt, m.registry = [mev, free, dflt] ∧
      mev.name = LaneName.mev ∧ free.name = LaneName.free ∧ dflt.name = LaneName.default ∧
      m.Select budget <+:
        m.laneSelection mev ++ m.laneSelection free ++ m.laneSelection dflt ∧
      (totalBytes (m.laneSelection mev ++ m.laneSelection free ++ m.laneSelection dflt) ≤
          budget.byteBudget →
        totalGas (m.laneSelection mev ++ m.laneSelection free ++ m.laneSelection dflt) ≤
          budget.gasBudget →
        m.Select budget =
          m.laneSelection mev ++ m.laneSelection free ++ m.laneSelection dflt)) ∧
    (∀ (svA : Services) (freeTx fee5 fee3 fee1 : Tx) (D : List Tx) (b : Budget),
      D.Perm [fee5, fee3, fee1] →
      0 < fee5.gasLimit → fee5.fee = 5 * fee5.gasLimit →
      0 < fee3.gasLimit → fee3.fee = 3 * fee3.gasLimit →
      0 < fee1.gasLimit → fee1.fee = 1 * fee1.gasLimit →
      totalBytes [freeTx, fee5, fee3, fee1] ≤ b.byteBudget →
      totalGas [freeTx, fee5, fee3, fee1] ≤ b.gasBudget →
      (NewInitiaApp.mempoolWith svA [] [freeTx] D).Select b =
        [freeTx, fee5, fee3, fee1]) := by
  constructor
  · obtain ⟨A, B, C, rfl, -, -, -, -⟩ := hm.wellFormed
    refine ⟨NewInitiaApp.mevLane.withTxs A, (NewInitiaApp.freeLane sv).withTxs B,
      NewInitiaApp.defaultLane.withTxs C, rfl, rfl, rfl, rfl, ?_, ?_⟩
    · have := flatten_initial (takeUnits_initial budget.byteBudget budget.gasBudget
        ((NewInitiaApp.mempoolWith sv A B C).registry.flatMap
          (NewInitiaApp.mempoolWith sv A B C).laneUnits))
      simpa [LanedMempool.Select, LanedMempool.laneSelection, NewInitiaApp.mempoolWith]
        using this
    · intro hb hg
      have hU : ((NewInitiaApp.mempoolWith sv A B C).registry.flatMap
          (NewInitiaApp.mempoolWith sv A B C).laneUnits).flatten =
          (NewInitiaApp.mempoolWith sv A B C).laneSelection
              (NewInitiaApp.mevLane.withTxs A) ++
            (NewInitiaApp.mempoolWith sv A B C).laneSelection
              ((NewInitiaApp.freeLane sv).withTxs B) ++
            (NewInitiaApp.mempoolWith sv A B C).laneSelection
              (NewInitiaApp.defaultLane.withTxs C) := by
        simp [LanedMempool.laneSelection, NewInitiaApp.mempoolWith]
      unfold LanedMempool.Select
      rw [takeUnits_all _ _ _ (by rw [hU]; exact hb) (by rw [hU]; exact hg), hU]
  · intro svA freeTx fee5 fee3 fee1 D b hD g5 f5 g3 f3 g1 f1 hb hg
    have o53 : feeOutranks fee5 fee3 = true := by
      have : fee3.fee * fee5.gasLimit < fee5.fee * fee3.gasLimit := by
        rw [f5, f3]; nlinarith [Nat.mul_pos g5 g3]
      simp [feeOutranks, feeNum, feeDen, Nat.ne_of_gt g5, Nat.ne_of_gt g3, this]
    have o51 : feeOutranks fee5 fee1 = true := by
      have : fee1.fee * fee5.gasLimit < fee5.fee * fee1.gasLimit := by
        rw [f5, f1]; nlinarith [Nat.mul_pos g5 g1]
      simp [feeOutranks, feeNum, feeDen, Nat.ne_of_gt g5, Nat.ne_of_gt g1, this]
    have o31 : feeOutranks fee3 fee1 = true := by
      have : fee1.fee * fee3.gasLimit < fee3.fee * fee1.gasLimit := by
        rw [f3, f1]; nlinarith [Nat.mul_pos g3 g1]
      simp [feeOutranks, feeNum, feeDen, Nat.ne_of_gt g3, Nat.ne_of_gt g1, this]
    have hsel : (NewInitiaApp.defaultLane.withTxs D).Select = [fee5, fee3, fee1] := by
      apply @sorted_perm_unique feeOutranks
      · exact (Lane.Select_perm _).trans hD
      · exact Lane.Select_sorted (NewInitiaApp.defaultLane.withTxs D) feeOutranks_lawful
      · simp [o53, o51, o31]
    have hfree : ((NewInitiaApp.freeLane svA).withTxs [freeTx]).Select = [freeTx] := by
      simp [Lane.Select, Lane.withTxs]
    have hmev : (NewInitiaApp.mevLane.withTxs []).Select = [] := by
      simp [Lane.Select, Lane.withTxs]
    have hU : (NewInitiaApp.mempoolWith svA [] [freeTx] D).registry.flatMap
        (NewInitiaApp.mempoolWith svA [] [freeTx] D).laneUnits =
        [[freeTx], [fee5], [fee3], [fee1]] := by
      have e1 := (NewInitiaApp.mempoolWith svA [] [freeTx] D).laneUnits_of_not_mev
        ((NewInitiaApp.freeLane svA).withTxs [freeTx]) (by
          simp [Lane.withTxs, NewInitiaApp.freeLane, NewFreeLane])
      have e2 := (NewInitiaApp.mempoolWith svA [] [freeTx] D).laneUnits_of_not_mev
        (NewInitiaApp.defaultLane.withTxs D) (by
          simp [Lane.withTxs, NewInitiaApp.defaultLane, NewDefaultLane])
      have e0 : (NewInitiaApp.mempoolWith svA [] [freeTx] D).laneUnits
          (NewInitiaApp.mevLane.withTxs []) = [] := by
        simp [LanedMempool.laneUnits, hmev]
      rw [hfree] at e1
      rw [hsel] at e2
      simp only [NewInitiaApp.mempoolWith, List.flatMap_cons, List.flatMap_nil]
      simp only [NewInitiaApp.mempoolWith] at e0 e1 e2
      rw [e0, e1, e2]
      rfl
    unfold LanedMempool.Select
    rw [hU, takeUnits_all _ _ _ (by simpa using hb) (by simpa using hg)]
    rfl

/-- Witness of C9: the example mempool of scenario A, under a budget of two bytes, where
`Select` returns the first two transactions of the concatenation; and the scenario
itself on the same transactions. -/
theorem Select_is_concatenation_witness :
    Reachable Example.services Example.scenarioA ∧
    Example.scenarioA.Select { byteBudget := 2, gasBudget := 1000 } =
      [Example.freeTx, Example.fee5] ∧
    Example.scenarioA.Select { byteBudget := 1000, gasBudget := 1000 } =
      [Example.freeTx, Example.fee5, Example.fee3, Example.fee1] :=
  ⟨Example.scenarioA_reachable, by decide,
    (Select_is_concatenation Example.services Example.scenarioA
      { byteBudget := 2, gasBudget := 1000 } Example.scenarioA_reachable).2
      Example.services Example.freeTx Example.fee5 Example.fee3 Example.fee1
      [Example.fee1, Example.fee5, Example.fee3] { byteBudget := 1000, gasBudget := 1000 }
      (by decide) (by decide) (by decide) (by decide) (by decide) (by decide) (by decide)
      (by decide) (by decide)⟩

theorem pairwise_of_indexOf_lt {R : Tx → Tx → Prop} :
    ∀ (l : List Tx), l.Pairwise R → ∀ a b, b ∈ l → l.indexOf a < l.indexOf b → R a b := by
  intro l
  induction l with
  | nil => intro _ a b hb; simp at hb
  | cons x xs ih =>
    intro hp a b hb hlt
    rw [List.pairwise_cons] at hp
    by_cases hxa : x = a
    · subst hxa
      by_cases hxb : x = b
      · subst hxb
        simp at hlt
      · rcases List.mem_cons.1 hb with h | h
        · exact absurd h.symm hxb
        · exact hp.1 b h
    · by_cases hxb : x = b
      · subst hxb
        rw [List.indexOf_cons_self] at hlt
        exact absurd hlt (Nat.not_lt_zero _)
      · rw [List.indexOf_cons_ne _ hxa, List.indexOf_cons_ne _ hxb] at hlt
        rcases List.mem_cons.1 hb with h | h
        · exact absurd h.symm hxb
        · exact ih hp.2 a b h (Nat.lt_of_succ_lt_succ hlt)

/-- In the `Select()` output of a lane with a lawful comparator and no hash held twice,
one transaction comes before another exactly when the comparator ranks it higher. -/
theorem Lane.Select_precedes_iff (l : Lane) (hl : LawfulPriority l.outranks)
    (hnd : (l.txs.map (fun t => t.hash)).Nodup) (t1 t2 : Tx) (h1 : t1 ∈ l.Select)
    (h2 : t2 ∈ l.Select) :
    precedes l.Select t1 t2 ↔ l.outranks t1 t2 = true := by
  have hsorted := Lane.Select_sorted l hl
  have hinj : ∀ a b, a ∈ l.Select → b ∈ l.Select → a ≠ b → a.hash ≠ b.hash := by
    intro a b ha hb hne hh
    exact hne (List.inj_on_of_nodup_map hnd ((Lane.mem_Select l a).1 ha)
      ((Lane.mem_Select l b).1 hb) hh)
  unfold precedes
  constructor
  · intro hlt
    have hr : l.outranks t2 t1 = false := pairwise_of_indexOf_lt _ hsorted t1 t2 h2 hlt
    have hne : t1 ≠ t2 := by
      intro h; subst h; exact Nat.lt_irrefl _ hlt
    rcases hl.total t1 t2 (hinj t1 t2 h1 h2 hne) with h | h
    · exact h
    · rw [hr] at h; exact Bool.noConfusion h
  · intro hout
    have hne : t1 ≠ t2 := by
      intro h; subst h
      have := hl.asymm t1 t1 hout
      rw [hout] at this; exact Bool.noConfusion this
    rcases Nat.lt_trichotomy (l.Select.indexOf t1) (l.Select.indexOf t2) with h | h | h
    · exact h
    · exact absurd ((List.indexOf_inj h1 h2).1 h) hne
    · have hr : l.outranks t1 t2 = false := pairwise_of_indexOf_lt _ hsorted t2 t1 h1 h
      rw [hout] at hr; exact Bool.noConfusion hr

/-- C10: for every reachable state of the mempool of the application, every lane of it
and all transactions `t1` and `t2` that the lane's `Select` returns, `t1` precedes `t2`
if and only if the lane's comparator ranks `t1` higher than `t2`. The comparator of
the free lane is the default transaction priority, which is taken to be lawful, and the
comparator of the MEV lane is the bid comparator. -/
theorem Select_order_iff_outranks (sv : Services)
    (hP : LawfulPriority sv.DefaultTxPriority) (m : LanedMempool) (hm : Reachable sv m)
    (l : Lane) (hl : l ∈ m.registry) (t1 t2 : Tx) (h1 : t1 ∈ l.Select)
    (h2 : t2 ∈ l.Select) :
    (precedes l.Select t1 t2 ↔ l.outranks t1 t2 = true) ∧
    (l.name = LaneName.free → l.outranks = sv.DefaultTxPriority) ∧
    (l.name = LaneName.mev → l.outranks = bidOutranks) := by
  obtain ⟨A, B, C, rfl, -, -, -, hnd⟩ := hm.wellFormed
  have hA : (A.map (fun t => t.hash)).Nodup :=
    hnd.sublist (List.Sublist.map _ ((List.sublist_append_left A B).trans
      (List.sublist_append_left (A ++ B) C)))
  have hB : (B.map (fun t => t.hash)).Nodup :=
    hnd.sublist (List.Sublist.map _ ((List.sublist_append_right A B).trans
      (List.sublist_append_left (A ++ B) C)))
  have hC : (C.map (fun t => t.hash)).Nodup :=
    hnd.sublist (List.Sublist.map _ (List.sublist_append_right (A ++ B) C))
  simp only [NewInitiaApp.mempoolWith, List.mem_cons, List.mem_singleton,
    List.not_mem_nil, or_false] at hl
  rcases hl with rfl | rfl | rfl
  · refine ⟨Lane.Select_precedes_iff _ bidOutranks_lawful hA t1 t2 h1 h2, ?_, ?_⟩
    · intro h
      simp [Lane.withTxs, NewInitiaApp.mevLane, NewMEVLane] at h
    · intro _; rfl
  · refine ⟨Lane.Select_precedes_iff _ hP hB t1 t2 h1 h2, ?_, ?_⟩
    · intro _; rfl
    · intro h
      simp [Lane.withTxs, NewInitiaApp.freeLane, NewFreeLane] at h
  · refine ⟨Lane.Select_precedes_iff _ feeOutranks_lawful hC t1 t2 h1 h2, ?_, ?_⟩
    · intro h
      simp [Lane.withTxs, NewInitiaApp.defaultLane, NewDefaultLane] at h
    · intro h
      simp [Lane.withTxs, NewInitiaApp.defaultLane, NewDefaultLane] at h

/-- Witness of C10: the default lane of the example mempool, the fee-5 transaction and
the fee-1 transaction, which arrived first. -/
theorem Select_order_iff_outranks_witness :
    LawfulPriority Example.services.DefaultTxPriority ∧
    Reachable Example.services Example.scenarioA ∧
    NewInitiaApp.defaultLane.withTxs [Example.fee1, Example.fee5, Example.fee3] ∈
      Example.scenarioA.registry ∧
    (precedes (NewInitiaApp.defaultLane.withTxs
        [Example.fee1, Example.fee5, Example.fee3]).Select Example.fee5 Example.fee1 ↔
      feeOutranks Example.fee5 Example.fee1 = true) :=
  ⟨feeOutranks_lawful, Example.scenarioA_reachable,
    List.mem_cons_of_mem _ (List.mem_cons_of_mem _ (List.mem_cons_self _ _)),
    (Select_order_iff_outranks Example.services feeOutranks_lawful Example.scenarioA
      Example.scenarioA_reachable
      (NewInitiaApp.defaultLane.withTxs [Example.fee1, Example.fee5, Example.fee3])
      (List.mem_cons_of_mem _ (List.mem_cons_of_mem _ (List.mem_cons_self _ _)))
      Example.fee5 Example.fee1 (by decide) (by decide)).1⟩

/-! ### Uniqueness of hashes and removal -/

/-- C11: mempool-wide uniqueness is an invariant of every `Insert` and `Remove`. In every
reachable state of the mempool of the application no transaction hash is held twice:
two different lanes hold no hash in common, a lane holds no hash twice, and the state
after a successful `Insert` and after a `Remove` has the same property. -/
theorem mempool_wide_uniqueness (sv : Services) (m : LanedMempool) (hm : Reachable sv m) :
    (m.allTxs.map (fun t => t.hash)).Nodup ∧
    (∀ i j l₁ l₂, i ≠ j → m.registry.get? i = some l₁ → m.registry.get? j = some l₂ →
      ∀ t₁ ∈ l₁.txs, ∀ t₂ ∈ l₂.txs, t₁.hash ≠ t₂.hash) ∧
    (∀ tx m' evicted, m.Insert tx = Except.ok (m', evicted) →
      (m'.allTxs.map (fun t => t.hash)).Nodup) ∧
    (∀ hashes, ((m.Remove hashes).allTxs.map (fun t => t.hash)).Nodup) := by
  have all : ∀ m', Reachable sv m' → (m'.allTxs.map (fun t => t.hash)).Nodup := by
    intro m' hm'
    obtain ⟨A, B, C, rfl, -, -, -, hnd⟩ := hm'.wellFormed
    rw [mempoolWith_allTxs]
    exact hnd
  refine ⟨all m hm, ?_, ?_, ?_⟩
  · obtain ⟨A, B, C, rfl, -, -, -, hnd⟩ := hm.wellFormed
    rw [List.map_append, List.map_append] at hnd
    have hAB : ∀ a ∈ A, ∀ b ∈ B, a.hash ≠ b.hash := by
      intro a ha b hb hh
      have h1 := List.disjoint_of_nodup_append (List.Nodup.of_append_left hnd)
      exact h1 (List.mem_map_of_mem _ ha) (hh ▸ List.mem_map_of_mem _ hb)
    have hABC := List.disjoint_of_nodup_append hnd
    have hAC : ∀ a ∈ A, ∀ c ∈ C, a.hash ≠ c.hash := by
      intro a ha c hc hh
      exact hABC (List.mem_append_left _ (List.mem_map_of_mem _ ha))
        (hh ▸ List.mem_map_of_mem _ hc)
    have hBC : ∀ b ∈ B, ∀ c ∈ C, b.hash ≠ c.hash := by
      intro b hb c hc hh
      exact hABC (List.mem_append_right _ (List.mem_map_of_mem _ hb))
        (hh ▸ List.mem_map_of_mem _ hc)
    intro i j l₁ l₂ hij h1 h2 t₁ ht₁ t₂ ht₂
    simp only [NewInitiaApp.mempoolWith] at h1 h2
    match i, j with
    | 0, 0 => exact absurd rfl hij
    | 1, 1 => exact absurd rfl hij
    | 2, 2 => exact absurd rfl hij
    | 0, 1 =>
      simp at h1 h2; subst h1; subst h2
      exact hAB t₁ ht₁ t₂ ht₂
    | 0, 2 =>
      simp at h1 h2; subst h1; subst h2
      exact hAC t₁ ht₁ t₂ ht₂
    | 1, 2 =>
      simp at h1 h2; subst h1; subst h2
      exact hBC t₁ ht₁ t₂ ht₂
    | 1, 0 =>
      simp at h1 h2; subst h1; subst h2
      exact fun hh => hAB t₂ ht₂ t₁ ht₁ hh.symm
    | 2, 0 =>
      simp at h1 h2; subst h1; subst h2
      exact fun hh => hAC t₂ ht₂ t₁ ht₁ hh.symm
    | 2, 1 =>
      simp at h1 h2; subst h1; subst h2
      exact fun hh => hBC t₂ ht₂ t₁ ht₁ hh.symm
    | i + 3, _ => simp at h1
    | 0, j + 3 => simp at h2
    | 1, j + 3 => simp at h2
    | 2, j + 3 => simp at h2
  · intro tx m' evicted hins
    exact all m' (Reachable.insert hm hins)
  · intro hashes
    exact all _ (Reachable.remove hashes hm)

/-- Witness of C11: the example mempool with the bid. -/
theorem mempool_wide_uniqueness_witness :
    Reachable Example.services Example.withBid ∧
    (Example.withBid.allTxs.map (fun t => t.hash)).Nodup :=
  ⟨Example.withBid_reachable,
    (mempool_wide_uniqueness Example.services Example.withBid
      Example.withBid_reachable).1⟩

theorem Lane.Remove_Remove (l : Lane) (hashes : List Nat) :
    (l.Remove hashes).Remove hashes = l.Remove hashes := by
  simp [Lane.Remove, List.filter_filter]

theorem Lane.Remove_absent (l : Lane) (hashes : List Nat)
    (h : ∀ t ∈ l.txs, t.hash ∉ hashes) : l.Remove hashes = l := by
  have : l.txs.filter (fun t => decide (t.hash ∉ hashes)) = l.txs :=
    List.filter_eq_self.2 (fun t ht => by simpa using h t ht)
  cases l
  simp only [Lane.Remove] at this ⊢
  rw [this]

/-- C14: for every mempool state and every set of hashes, calling `Remove` twice leaves
the mempool in the same state as calling it once, and `Remove` of hashes that are not
present changes nothing. -/
theorem Remove_idempotent (m : LanedMempool) (hashes : List Nat) :
    (m.Remove hashes).Remove hashes = m.Remove hashes ∧
    ((∀ t ∈ m.allTxs, t.hash ∉ hashes) → m.Remove hashes = m) ∧
    (∀ hash, m.Contains hash = false → m.Remove [hash] = m) := by
  have absent : ∀ H : List Nat, (∀ t ∈ m.allTxs, t.hash ∉ H) → m.Remove H = m := by
    intro H h
    have hl : ∀ l ∈ m.registry, l.Remove H = l := by
      intro l hl
      apply Lane.Remove_absent
      intro t ht
      exact h t (List.mem_flatMap.2 ⟨l, hl, ht⟩)
    cases m with
    | mk registry =>
      simp only [LanedMempool.Remove, LanedMempool.mk.injEq]
      calc registry.map (fun l => l.Remove H) = registry.map id :=
            List.map_congr_left (fun l hl' => hl l hl')
        _ = registry := List.map_id _
  refine ⟨?_, absent hashes, ?_⟩
  · simp [LanedMempool.Remove, List.map_map, Function.comp_def, Lane.Remove_Remove]
  · intro hash hc
    apply absent
    intro t ht hmem
    have hth : t.hash = hash := by simpa using hmem
    have : m.Contains hash = true := by
      rw [LanedMempool.Contains, List.any_eq_true]
      exact ⟨t, ht, by simp [hth]⟩
    rw [hc] at this
    exact Bool.noConfusion this

/-- Witness of C14: on the example mempool, removing the hashes 3 and 40 twice is removing
them once, and removing the absent hash 40 changes nothing. -/
theorem Remove_idempotent_witness :
    (Example.withBid.Remove [3, 40]).Remove [3, 40] = Example.withBid.Remove [3, 40] ∧
    Example.withBid.Remove [40] = Example.withBid :=
  ⟨(Remove_idempotent Example.withBid [3, 40]).1,
    (Remove_idempotent Example.withBid [40]).2.2 40 (by decide)⟩

/-! ### The budget of a selection -/

/-- The units left out by the budget start with a unit that does not fit in what the
taken units have left of it. -/
theorem takeUnits_split (bytes gas : Nat) (U : List (List Tx)) :
    ∃ left, U = takeUnits bytes gas U ++ left ∧
      ∀ u, left.head? = some u →
        ¬ (totalBytes (takeUnits bytes gas U).flatten + totalBytes u ≤ bytes ∧
           totalGas (takeUnits bytes gas U).flatten + totalGas u ≤ gas) := by
  induction U generalizing bytes gas with
  | nil => exact ⟨[], by simp [takeUnits], by simp⟩
  | cons u rest ih =>
    by_cases hfit : totalBytes u ≤ bytes ∧ totalGas u ≤ gas
    · obtain ⟨left, h1, h2⟩ := ih (bytes - totalBytes u) (gas - totalGas u)
      refine ⟨left, ?_, ?_⟩
      · unfold takeUnits
        rw [if_pos hfit, List.cons_append, ← h1]
      · intro v hv hboth
        apply h2 v hv
        unfold takeUnits at hboth
        rw [if_pos hfit, List.flatten_cons, totalBytes_append, totalGas_append] at hboth
        omega
    · refine ⟨u :: rest, ?_, ?_⟩
      · unfold takeUnits
        rw [if_neg hfit, List.nil_append]
      · intro v hv hboth
        simp only [List.head?_cons, Option.some.injEq] at hv
        subst hv
        unfold takeUnits at hboth
        rw [if_neg hfit] at hboth
        simp only [List.flatten_nil, totalBytes, totalGas, List.map_nil, List.sum_nil,
          Nat.zero_add] at hboth
        exact hfit hboth

/-- Every unit of a lane is a transaction of the lane followed by the transactions that
the mempool holds under the hashes of its bundle, all of them and in order. -/
theorem LanedMempool.laneUnits_shape (m : LanedMempool) (l : Lane) (u : List Tx)
    (hu : u ∈ m.laneUnits l) :
    ∃ t bs, t ∈ l.txs ∧ u = t :: bs ∧ bs.map (fun b => b.hash) = l.bundleOf t ∧
      ∀ b ∈ bs, b ∈ m.allTxs := by
  unfold LanedMempool.laneUnits at hu
  obtain ⟨t, ht, hunit⟩ := List.mem_filterMap.1 hu
  obtain ⟨bs, hbs, h1, h2⟩ := m.unit_some l t u hunit
  exact ⟨t, bs, (Lane.mem_Select l t).1 ht, hbs, h1, h2⟩

/-- C12: for every mempool state and every budget, the transactions `Select` returns have
a total serialized byte size of at most the byte budget (and a total gas of at most the
gas budget), and no bid bundle is split by the budget boundary. The output is made of
whole units, a unit being a transaction followed at once by every transaction of its
bundle: the units of the lanes fall into those taken, which make up the output, and
those left out, which contribute nothing and start with a unit that did not fit. When
the first lane holds a single bid whose bundle is resident, either the bid and every
transaction of its bundle are in the output or the output is empty. -/
theorem Select_within_budget_whole_units (m : LanedMempool) (budget : Budget) :
    totalBytes (m.Select budget) ≤ budget.byteBudget ∧
    totalGas (m.Select budget) ≤ budget.gasBudget ∧
    (∃ taken left, m.registry.flatMap m.laneUnits = taken ++ left ∧
      m.Select budget = taken.flatten ∧
      ∀ u, left.head? = some u →
        ¬ (totalBytes taken.flatten + totalBytes u ≤ budget.byteBudget ∧
           totalGas taken.flatten + totalGas u ≤ budget.gasBudget)) ∧
    (∀ l ∈ m.registry, ∀ u ∈ m.laneUnits l,
      ∃ t bs, t ∈ l.txs ∧ u = t :: bs ∧ bs.map (fun b => b.hash) = l.bundleOf t) ∧
    (∀ l rest t u, m.registry = l :: rest → l.Select = [t] → m.unit l t = some u →
      (t ∈ m.Select budget ∧ ∀ x ∈ u, x ∈ m.Select budget) ∨ m.Select budget = []) := by
  obtain ⟨hb, hg⟩ := takeUnits_within budget.byteBudget budget.gasBudget
    (m.registry.flatMap m.laneUnits)
  refine ⟨hb, hg, ?_, ?_, ?_⟩
  · obtain ⟨left, h1, h2⟩ := takeUnits_split budget.byteBudget budget.gasBudget
      (m.registry.flatMap m.laneUnits)
    exact ⟨_, left, h1, rfl, h2⟩
  · intro l _ u hu
    obtain ⟨t, bs, h1, h2, h3, -⟩ := m.laneUnits_shape l u hu
    exact ⟨t, bs, h1, h2, h3⟩
  · intro l rest t u hreg hsel hunit
    have hU : m.registry.flatMap m.laneUnits = u :: rest.flatMap m.laneUnits := by
      rw [hreg, List.flatMap_cons]
      simp [LanedMempool.laneUnits, hsel, hunit]
    obtain ⟨bs, rfl, -, -⟩ := m.unit_some l t u hunit
    unfold LanedMempool.Select
    rw [hU]
    unfold takeUnits
    split
    · left
      rw [List.flatten_cons]
      exact ⟨List.mem_append_left _ (List.mem_cons_self _ _),
        fun x hx => List.mem_append_left _ hx⟩
    · right
      rfl

/-! ### The capacity of the lanes -/

theorem Lane.Insert_error {l : Lane} {tx : Tx} {e : MempoolError}
    (h : l.Insert tx = Except.error e) :
    l.atCapacity = true ∧ e = MempoolError.CapacityExceeded := by
  unfold Lane.Insert at h
  split at h
  · rename_i hcap
    refine ⟨hcap, ?_⟩
    split at h
    · split at h
      · simp at h
      · simp only [Except.error.injEq] at h
        exact h.symm
    · simp only [Except.error.injEq] at h
      exact h.symm
  · simp at h

/-- A successful `Lane.Insert` keeps the configuration of the lane and its bound. -/
theorem Lane.Insert_within {l l' : Lane} {tx : Tx} {evicted : Option Tx}
    (h : l.Insert tx = Except.ok (l', evicted))
    (hl : l.cfg.MaxTxs ≠ 0 → l.txs.length ≤ l.cfg.MaxTxs) :
    l'.cfg = l.cfg ∧ (l'.cfg.MaxTxs ≠ 0 → l'.txs.length ≤ l'.cfg.MaxTxs) := by
  unfold Lane.Insert at h
  split at h
  · rename_i hcap
    split at h
    · rename_i low hlow
      split at h
      · simp only [Except.ok.injEq, Prod.mk.injEq] at h
        obtain ⟨rfl, -⟩ := h
        refine ⟨rfl, ?_⟩
        intro h0
        have hmem : low ∈ l.txs :=
          (Lane.mem_Select l low).1 (List.mem_of_getLast?_eq_some hlow)
        have hlt : (l.txs.filter (fun t => decide (t.hash ≠ low.hash))).length <
            l.txs.length :=
          List.length_filter_lt_length_iff_exists.2 ⟨low, hmem, by simp⟩
        have := hl h0
        simp only [List.length_append, List.length_singleton]
        omega
      · simp at h
    · simp at h
  · rename_i hcap
    simp only [Except.ok.injEq, Prod.mk.injEq] at h
    obtain ⟨rfl, -⟩ := h
    refine ⟨rfl, ?_⟩
    intro h0
    have hnot : ¬ (l.cfg.MaxTxs ≤ l.txs.length) := by
      intro hle
      apply hcap
      simp [Lane.atCapacity, h0, hle]
    simp only [List.length_append, List.length_singleton]
    omega

theorem insertFirstMatch_within :
    ∀ (lanes lanes' : List Lane) (tx : Tx) (evicted : Option Tx),
      insertFirstMatch lanes tx = Except.ok (lanes', evicted) →
      (∀ l ∈ lanes, l.cfg.MaxTxs ≠ 0 → l.txs.length ≤ l.cfg.MaxTxs) →
      ∀ l ∈ lanes', l.cfg.MaxTxs ≠ 0 → l.txs.length ≤ l.cfg.MaxTxs := by
  intro lanes
  induction lanes with
  | nil =>
    intro lanes' tx evicted h
    simp [insertFirstMatch] at h
  | cons l0 rest ih =>
    intro lanes' tx evicted h hall
    unfold insertFirstMatch at h
    split at h
    · cases hins : l0.Insert tx with
      | error e => simp [hins] at h
      | ok r =>
        obtain ⟨l0', ev⟩ := r
        simp only [hins, Except.ok.injEq, Prod.mk.injEq] at h
        obtain ⟨rfl, -⟩ := h
        intro l hl
        rcases List.mem_cons.1 hl with rfl | hl
        · exact (Lane.Insert_within hins (hall l0 (List.mem_cons_self _ _))).2
        · exact hall l (List.mem_cons_of_mem _ hl)
    · cases hins : insertFirstMatch rest tx with
      | error e => simp [hins] at h
      | ok r =>
        obtain ⟨rest', ev⟩ := r
        simp only [hins, Except.ok.injEq, Prod.mk.injEq] at h
        obtain ⟨rfl, -⟩ := h
        intro l hl
        rcases List.mem_cons.1 hl with rfl | hl
        · exact hall l (List.mem_cons_self _ _)
        · exact ih rest' tx ev hins
            (fun l' hl' => hall l' (List.mem_cons_of_mem _ hl')) l hl

/-- In every reachable state every lane with a bound is within its bound. -/
theorem Reachable.withinCapacity {sv : Services} {m : LanedMempool}
    (hr : Reachable sv m) : m.WithinCapacity := by
  induction hr with
  | init =>
    intro l hl _
    simp only [NewInitiaApp.mempool, NewLanedMempool, NewInitiaApp.lanes, List.mem_cons,
      List.mem_singleton, List.not_mem_nil, or_false] at hl
    rcases hl with rfl | rfl | rfl <;> exact Nat.zero_le _
  | @insert m m' tx evicted _ hins ih =>
    unfold LanedMempool.Insert at hins
    split at hins
    · simp at hins
    · cases hfm : insertFirstMatch m.registry tx with
      | error e => simp [hfm] at hins
      | ok r =>
        obtain ⟨registry, ev⟩ := r
        simp only [hfm, Except.ok.injEq, Prod.mk.injEq] at hins
        obtain ⟨rfl, -⟩ := hins
        exact insertFirstMatch_within m.registry registry tx ev hfm ih
  | remove hashes _ ih =>
    intro l hl h0
    simp only [LanedMempool.Remove, List.mem_map] at hl
    obtain ⟨l0, hl0, rfl⟩ := hl
    have := ih l0 hl0 h0
    have hle := List.length_filter_le (fun t => decide (t.hash ∉ hashes)) l0.txs
    simp only [Lane.Remove] at h0 ⊢
    omega

/-- Counterexample to C13 as stated: the state reached by inserting the bid of 100 and
then the bid of 50 holds both bids in the MEV lane, and the insertion of the bid of 50
succeeded without an eviction instead of failing with `CapacityExceeded`. -/
theorem MEV_lane_single_slot_counterexample :
    Reachable Example.services Example.twoBids ∧
    Example.twoBids.registry.map (fun l => (l.name, l.txs.length)) =
      [(LaneName.mev, 2), (LaneName.free, 0), (LaneName.default, 0)] ∧
    (NewInitiaApp.mempool Example.services).Insert Example.bidTx =
      Except.ok (NewInitiaApp.mempoolWith Example.services [Example.bidTx] [] [], none) ∧
    (NewInitiaApp.mempoolWith Example.services [Example.bidTx] [] []).Insert Example.bid50 =
      Except.ok (Example.twoBids, none) ∧
    bidAmount Example.bidTx = 100 ∧ bidAmount Example.bid50 = 50 :=
  ⟨@Reachable.insert _ _ _ Example.bid50 none
      (@Reachable.insert _ _ _ Example.bidTx none Reachable.init rfl) rfl,
    rfl, rfl, rfl, by decide, by decide⟩

/-- C13, amended: the MEV lane that `NewInitiaApp` configures has a bound of 100
transactions (`MaxTxs: 100`), not of one. In every reachable state the MEV lane holds
only bids and at most 100 of them, and a bid is rejected with `CapacityExceeded` only
when the lane holds 100 bids. Of two bids of 100 and 50 from different bidders that
arrive at the new mempool, both are admitted without an eviction and both stay in the
lane, whose `Select` ranks the bid of 100 first. -/
theorem MEV_lane_capacity (sv : Services) (m : LanedMempool) (hm : Reachable sv m) :
    NewInitiaApp.mevLane.cfg.MaxTxs = 100 ∧
    (∃ A B C, m = NewInitiaApp.mempoolWith sv A B C ∧ A.length ≤ 100 ∧
      (∀ t ∈ A, isBid t = true) ∧
      (∀ tx, isBid tx = true →
        m.Insert tx = Except.error MempoolError.CapacityExceeded → A.length = 100)) ∧
    (∀ (bid100 bid50 : Tx) (b100 b50 : AuctionBid),
      Extract bid100 = Extracted.bid b100 → b100.amount = 100 →
      Extract bid50 = Extracted.bid b50 → b50.amount = 50 →
      b100.bidder ≠ b50.bidder → bid100.hash ≠ bid50.hash →
      (NewInitiaApp.mempool sv).Insert bid100 =
        Except.ok (NewInitiaApp.mempoolWith sv [bid100] [] [], none) ∧
      (NewInitiaApp.mempoolWith sv [bid100] [] []).Insert bid50 =
        Except.ok (NewInitiaApp.mempoolWith sv [bid100, bid50] [] [], none) ∧
      (NewInitiaApp.mevLane.withTxs [bid100, bid50]).Select = [bid100, bid50]) := by
  refine ⟨rfl, ?_, ?_⟩
  · obtain ⟨A, B, C, rfl, hA, -, -, -⟩ := hm.wellFormed
    have hcap := hm.withinCapacity (NewInitiaApp.mevLane.withTxs A)
      (by simp [NewInitiaApp.mempoolWith])
      (by simp [Lane.withTxs, NewInitiaApp.mevLane, NewMEVLane, NewInitiaApp.mevConfig])
    have hlen : A.length ≤ 100 := hcap
    refine ⟨A, B, C, rfl, hlen, hA, ?_⟩
    intro tx hbid hins
    unfold LanedMempool.Insert at hins
    split at hins
    · simp at hins
    · cases hl : (NewInitiaApp.mevLane.withTxs A).Insert tx with
      | ok r =>
        simp [NewInitiaApp.mempoolWith, insertFirstMatch, Lane.withTxs,
          NewInitiaApp.mevLane, NewMEVLane, hbid] at hins hl
        simp [hl] at hins
      | error e =>
        obtain ⟨hat, -⟩ := Lane.Insert_error hl
        have : 100 ≤ A.length := by
          simpa [Lane.atCapacity, Lane.withTxs, NewInitiaApp.mevLane, NewMEVLane,
            NewInitiaApp.mevConfig] using hat
        omega
  · intro bid100 bid50 b100 b50 e100 a100 e50 a50 _ hhash
    have i100 : isBid bid100 = true := by simp [isBid, e100]
    have i50 : isBid bid50 = true := by simp [isBid, e50]
    have am100 : bidAmount bid100 = 100 := by simp [bidAmount, e100, a100]
    have am50 : bidAmount bid50 = 50 := by simp [bidAmount, e50, a50]
    refine ⟨?_, ?_, ?_⟩
    · simp [NewInitiaApp.mempool, NewLanedMempool, NewInitiaApp.lanes,
        NewInitiaApp.mempoolWith, LanedMempool.Insert, LanedMempool.Contains,
        LanedMempool.allTxs, insertFirstMatch, Lane.Insert, Lane.atCapacity, Lane.withTxs,
        NewInitiaApp.mevLane, NewMEVLane, NewInitiaApp.mevConfig, NewInitiaApp.freeLane,
        NewFreeLane, NewInitiaApp.defaultLane, NewDefaultLane, i100]
    · simp [NewInitiaApp.mempoolWith, LanedMempool.Insert, LanedMempool.Contains,
        LanedMempool.allTxs, insertFirstMatch, Lane.Insert, Lane.atCapacity, Lane.withTxs,
        NewInitiaApp.mevLane, NewMEVLane, NewInitiaApp.mevConfig, NewInitiaApp.freeLane,
        NewFreeLane, NewInitiaApp.defaultLane, NewDefaultLane, i50, hhash]
    · simp [Lane.Select, Lane.withTxs, NewInitiaApp.mevLane, NewMEVLane,
        List.insertionSort, List.orderedInsert, bidOutranks, am100, am50]

/-- Witness of C13 as amended: the example mempool with its two bids. -/
theorem MEV_lane_capacity_witness :
    Reachable Example.services Example.twoBids ∧
    (NewInitiaApp.mevLane.withTxs [Example.bidTx, Example.bid50]).Select =
      [Example.bidTx, Example.bid50] ∧
    (NewInitiaApp.mempoolWith Example.services [Example.bidTx] [] []).Insert Example.bid50 =
      Except.ok
        (NewInitiaApp.mempoolWith Example.services [Example.bidTx, Example.bid50] [] [],
          none) :=
  have hr : Reachable Example.services Example.twoBids :=
    @Reachable.insert _ _ _ Example.bid50 none
      (@Reachable.insert _ _ _ Example.bidTx none Reachable.init rfl) rfl
  have w := (MEV_lane_capacity Example.services Example.twoBids hr).2.2
    Example.bidTx Example.bid50 { bidder := 77, amount := 100, bundle := [3, 2] }
    { bidder := 78, amount := 50, bundle := [3] } rfl rfl rfl rfl (by decide) (by decide)
  ⟨hr, w.2.2, w.2.1⟩

/-! ### The order of the lanes in a block -/

/-- In a block that passes the order check, the lane transactions are assigned to lanes
whose positions never decrease. -/
theorem verifyOrder_lane_positions (lanes : List Lane) :
    ∀ (txs : List Tx) (cur : Nat) (prev : Option Tx) (pending : List Nat),
      verifyOrder lanes cur prev pending txs = true →
      (∀ t ∈ laneTransactions lanes pending txs,
        ∃ j, (firstMatch lanes t).map Prod.fst = some j ∧ cur ≤ j) ∧
      List.Pairwise (fun a b => ∀ ja jb, (firstMatch lanes a).map Prod.fst = some ja →
        (firstMatch lanes b).map Prod.fst = some jb → ja ≤ jb)
        (laneTransactions lanes pending txs) := by
  intro txs
  induction txs with
  | nil =>
    intro cur prev pending _
    cases pending <;> simp [laneTransactions]
  | cons tx rest ih =>
    intro cur prev pending h
    cases pending with
    | cons hash pending =>
      simp only [verifyOrder, Bool.and_eq_true] at h
      simpa [laneTransactions] using ih cur prev pending h.2
    | nil =>
      unfold verifyOrder at h
      cases hfm : firstMatch lanes tx with
      | none => simp [hfm] at h
      | some r =>
        obtain ⟨j, lane⟩ := r
        simp only [hfm, Bool.and_eq_true, decide_eq_true_eq] at h
        obtain ⟨⟨hle, -⟩, hrest⟩ := h
        obtain ⟨h1, h2⟩ := ih j (some tx) (lane.bundleOf tx) hrest
        have hL : laneTransactions lanes [] (tx :: rest) =
            tx :: laneTransactions lanes (lane.bundleOf tx) rest := by
          simp [laneTransactions, hfm]
        rw [hL]
        refine ⟨?_, ?_⟩
        · intro t ht
          rcases List.mem_cons.1 ht with rfl | ht
          · exact ⟨j, by simp [hfm], hle⟩
          · obtain ⟨j', hj', hle'⟩ := h1 t ht
            exact ⟨j', hj', le_trans hle hle'⟩
        · rw [List.pairwise_cons]
          refine ⟨?_, h2⟩
          intro b hb ja jb ha hjb
          obtain ⟨j', hj', hle'⟩ := h1 b hb
          rw [hfm] at ha
          simp only [Option.map_some', Option.some.injEq] at ha
          rw [hj'] at hjb
          simp only [Option.some.injEq] at hjb
          omega

/-- C15: for every candidate block in which a transaction that matches the default lane
appears before a transaction that matches the free lane, `ProcessProposal` rejects the
block with `OrderingViolation`, a reject vote, whatever the lanes of the verifying node
hold, at every height and under every budget. The block is one whose transactions
decode, and the two transactions are lane transactions of the block (the bundle of a
bid is read with its bid), assigned to the default lane and to the free lane by the
first matching lane. -/
theorem ProcessProposal_rejects_default_before_free (sv : Services) (A B C : List Tx)
    (height : Nat) (budget : Budget) (block : List (List Byte)) (txs : List Tx)
    (d f : Tx) (pre mid post : List Tx)
    (hdec : decodeAll sv.TxDecoder block = some txs)
    (hpos : laneTransactions (NewInitiaApp.mempoolWith sv A B C).registry [] txs =
      pre ++ d :: mid ++ f :: post)
    (hd : isBid d = false ∧ sv.FreeLaneMatchHandler d = false)
    (hf : isBid f = false ∧ sv.FreeLaneMatchHandler f = true) :
    ProcessProposal sv.TxDecoder (NewInitiaApp.mempoolWith sv A B C) height budget block =
      Verdict.reject ProposalError.OrderingViolation := by
  have hnot : ¬ verifyOrder (NewInitiaApp.mempoolWith sv A B C).registry 0 none [] txs =
      true := by
    intro hv
    obtain ⟨-, hpw⟩ := verifyOrder_lane_positions _ txs 0 none [] hv
    rw [hpos] at hpw
    have hdf := (List.pairwise_append.1 hpw).2.2 d (by simp) f (by simp) 2 1
      (by rw [firstMatch_mempoolWith]; simp [hd.1, hd.2])
      (by rw [firstMatch_mempoolWith]; simp [hf.1, hf.2])
    omega
  unfold ProcessProposal
  rw [hdec]
  simp only
  rw [if_neg (fun h => hnot h.2.2)]

/-- Witness of C15: the block of the fee-5 transaction followed by the fee-exempt
transaction, before the example mempool. -/
theorem ProcessProposal_rejects_default_before_free_witness :
    decodeAll Example.services.TxDecoder [[5], [1]] =
      some [Example.fee5, Example.freeTx] ∧
    laneTransactions Example.withBid.registry [] [Example.fee5, Example.freeTx] =
      [Example.fee5, Example.freeTx] ∧
    ProcessProposal Example.services.TxDecoder Example.withBid 7
      { byteBudget := 1000, gasBudget := 1000 } [[5], [1]] =
      Verdict.reject ProposalError.OrderingViolation :=
  ⟨by decide, by decide,
    ProcessProposal_rejects_default_before_free Example.services [Example.bidTx]
      [Example.freeTx] [Example.fee1, Example.fee5, Example.fee3] 7
      { byteBudget := 1000, gasBudget := 1000 } [[5], [1]]
      [Example.fee5, Example.freeTx] Example.fee5 Example.freeTx [] [] []
      (by decide) (by decide) (by decide) (by decide)⟩

/-- Witness of C12: the example mempool with the bid under a budget of four bytes: the
output stays within four bytes and holds the bid with its whole bundle. -/
theorem Select_within_budget_whole_units_witness :
    totalBytes (Example.withBid.Select { byteBudget := 4, gasBudget := 1000 }) ≤ 4 ∧
    Example.withBid.Select { byteBudget := 4, gasBudget := 1000 } =
      [Example.bidTx, Example.fee3, Example.fee1, Example.freeTx] ∧
    Example.withBid.Select { byteBudget := 2, gasBudget := 1000 } = [] :=
  ⟨(Select_within_budget_whole_units Example.withBid
      { byteBudget := 4, gasBudget := 1000 }).1, by decide, by decide⟩

/-! ### The order of the modules -/

/-- C23: during begin block slashing happens after distribution: in the list passed to
`SetOrderBeginBlockers` the distribution module name occurs at a strictly smaller index
(3) than the slashing module name (4), and each of the two occurs once. -/
theorem orderBeginBlockers_distr_before_slashing :
    NewInitiaApp.orderBeginBlockers.indexOf ModuleName.distrtypes_ModuleName <
      NewInitiaApp.orderBeginBlockers.indexOf ModuleName.slashingtypes_ModuleName ∧
    NewInitiaApp.orderBeginBlockers.get? 3 = some ModuleName.distrtypes_ModuleName ∧
    NewInitiaApp.orderBeginBlockers.get? 4 = some ModuleName.slashingtypes_ModuleName ∧
    NewInitiaApp.orderBeginBlockers.count ModuleName.distrtypes_ModuleName = 1 ∧
    NewInitiaApp.orderBeginBlockers.count ModuleName.slashingtypes_ModuleName = 1 := by
  decide

/-- C24: in the list passed to `SetOrderInitGenesis` the genutil module occurs after the
staking module: the staking module name stands at index 5, the genutil module name at
the strictly larger index 10, and each of the two occurs once. -/
theorem orderInitGenesis_genutil_after_staking :
    NewInitiaApp.orderInitGenesis.indexOf ModuleName.stakingtypes_ModuleName <
      NewInitiaApp.orderInitGenesis.indexOf ModuleName.genutiltypes_ModuleName ∧
    NewInitiaApp.orderInitGenesis.get? 5 = some ModuleName.stakingtypes_ModuleName ∧
    NewInitiaApp.orderInitGenesis.get? 10 = some ModuleName.genutiltypes_ModuleName ∧
    NewInitiaApp.orderInitGenesis.count ModuleName.stakingtypes_ModuleName = 1 ∧
    NewInitiaApp.orderInitGenesis.count ModuleName.genutiltypes_ModuleName = 1 := by
  decide

/-- C25: the capability module occurs first in the list passed to `SetOrderInitGenesis`:
its index is 0, it occurs nowhere else, and every other module of the list stands at a
later index. -/
theorem orderInitGenesis_capability_first :
    NewInitiaApp.orderInitGenesis.head? = some ModuleName.capabilitytypes_ModuleName ∧
    NewInitiaApp.orderInitGenesis.indexOf ModuleName.capabilitytypes_ModuleName = 0 ∧
    NewInitiaApp.orderInitGenesis.count ModuleName.capabilitytypes_ModuleName = 1 ∧
    NewInitiaApp.orderInitGenesis.Nodup ∧
    (∀ name ∈ NewInitiaApp.orderInitGenesis,
      name ≠ ModuleName.capabilitytypes_ModuleName →
        0 < NewInitiaApp.orderInitGenesis.indexOf name) := by
  decide

end Initia
